import Mathlib

/-!
Verification of the `dcttools` mapping-utility module (`src/dcttools/core.py`).

Python dictionaries are modelled as association lists in insertion order;
every dict the library actually builds has unique keys, and lookups scan for
the first matching key, which coincides with Python dict semantics on such
lists.  Stateful aspects (mutation of dictionaries, object identity) are
modelled separately with an explicit store, and the cycle-safe breadth-first
depth probe is modelled over an explicit object graph.
-/

namespace Dcttools

/-- Association-list model of a Python dict: entries in insertion order. -/
abbrev Dict (κ ν : Type) := List (κ × ν)

/-- `d.get(k)` / `k in d`: value of the first entry with key `k`. -/
def lookup [DecidableEq κ] : Dict κ ν → κ → Option ν
  | [], _ => none
  | (k0, v) :: rest, k => if k0 = k then some v else lookup rest k

/-- `k in d` as a Bool. -/
def hasKey [DecidableEq κ] (d : Dict κ ν) (k : κ) : Bool :=
  (lookup d k).isSome

/-- `d[k] = v`: overwrite the entry in place when the key is present
(keeping its position), append a fresh entry otherwise. -/
def setItem [DecidableEq κ] : Dict κ ν → κ → ν → Dict κ ν
  | [], k, v => [(k, v)]
  | (k0, v0) :: rest, k, v =>
      if k0 = k then (k, v) :: rest else (k0, v0) :: setItem rest k v

/-- `d.pop(k)`: remove the first entry with key `k` (a no-op when absent;
the library only pops keys that are present). -/
def popItem [DecidableEq κ] : Dict κ ν → κ → Dict κ ν
  | [], _ => []
  | (k0, v0) :: rest, k =>
      if k0 = k then rest else (k0, v0) :: popItem rest k

/-- `d.get(k, dflt)`-style total lookup used for `defaultdict(dict)` reads. -/
def getD [DecidableEq κ] (d : Dict κ ν) (k : κ) (dflt : ν) : ν :=
  (lookup d k).getD dflt

/-- The keys of a dict, in insertion order. -/
def keys (d : Dict κ ν) : List κ := d.map Prod.fst

/-! ### String utilities: `fnd in key` and `key.replace(fnd, rplc)` -/

/-- Keys of the string-keyed dicts, as character lists. -/
abbrev Key := List Char

/-- Python's `fnd in key` substring test. -/
def containsSub (s fnd : Key) : Bool :=
  if fnd.isPrefixOf s then true
  else
    match s with
    | [] => false
    | _ :: rest => containsSub rest fnd

/-- Python's `key.replace(fnd, rplc)`: replace all non-overlapping
occurrences left to right; an empty pattern inserts `rplc` before every
character and at the end, as in Python. -/
def pyReplace : Key → Key → Key → Key
  | [], fnd, rplc => if fnd = [] then rplc else []
  | c :: rest, fnd, rplc =>
      if fnd ≠ [] ∧ fnd.isPrefixOf (c :: rest) then
        rplc ++ pyReplace ((c :: rest).drop fnd.length) fnd rplc
      else if fnd = [] then rplc ++ c :: pyReplace rest fnd rplc
      else c :: pyReplace rest fnd rplc
termination_by s _ _ => s.length
decreasing_by
  · simp only [List.length_drop, List.length_cons]
    have : fnd.length ≠ 0 := by
      intro h0
      exact (by assumption : fnd ≠ [] ∧ _).1 (List.eq_nil_of_length_eq_zero h0)
    omega
  · simp
  · simp

/-! ### `kfrep`: key find-and-replace (core.py lines 190-308)

The function copies each dict, then iterates over a snapshot of the keys;
every key containing `fnd` and not listed in `xcptns` is popped and its
value re-inserted under the replaced key (`dctnry[key] = dctnry.pop(original_key)`).
In the value model the initial `.copy()` is the identity; the store model
below covers the mutation aspect. -/

abbrev DictS := Dict Key Nat

/-- `fnd in key and key not in xcptns`. -/
def kfrepMatch (fnd : Key) (xcptns : List Key) (k : Key) : Bool :=
  containsSub k fnd && !(decide (k ∈ xcptns))

/-- One iteration of the `for key in dctnry.copy().keys()` loop.
`none` models a `KeyError` from `dctnry.pop` (never reached). -/
def kfrepStep (fnd rplc : Key) (xcptns : List Key) :
    Option DictS → Key → Option DictS
  | none, _ => none
  | some d, k =>
      if kfrepMatch fnd xcptns k then
        match lookup d k with
        | some v => some (setItem (popItem d k) (pyReplace k fnd rplc) v)
        | none => none
      else some d

/-- `kfrep` on a single dict of the `dcts` container. -/
def kfrepOne (fnd rplc : Key) (xcptns : List Key) (d : DictS) : Option DictS :=
  (keys d).foldl (kfrepStep fnd rplc xcptns) (some d)

/-! ### Python values for the nested-dict functions -/

/-- Python values as the module sees them: `None`, opaque scalars, or
nested dicts with `Nat` keys. -/
inductive PyV : Type where
  | vnone : PyV
  | vint : Int → PyV
  | vdict : List (Nat × PyV) → PyV

/-- Flat dict of Python values. -/
abbrev DictV := Dict Nat PyV

/-- Depth-1 nested dict (the shape `naggregate` produces). -/
abbrev DictN := Dict Nat DictV

/-! ### `kswap` (core.py lines 311-360) -/

/-- The `defaultdict(dict)` state `kswap` builds: for every top-level key
whose value is a dict, `key_swapped[subkey].update({tlkey: value})`. -/
def kswapCore (nstd : Dict Nat PyV) : Dict Nat (Dict Nat PyV) :=
  nstd.foldl
    (fun acc p =>
      match p.2 with
      | PyV.vdict sub =>
          sub.foldl
            (fun acc2 q => setItem acc2 q.1 (setItem (getD acc2 q.1 []) p.1 q.2))
            acc
      | _ => acc)
    []

/-- `kswap`: build the swapped `defaultdict(dict)`, then convert to a
plain dict (the built inner dicts wrapped as `PyV.vdict` values). -/
def kswap (nstd : Dict Nat PyV) : Dict Nat PyV :=
  (kswapCore nstd).map (fun p => (p.1, PyV.vdict p.2))

/-! ### `flaggregate` (core.py lines 363-464) and `naggregate` (467-549) -/

/-- `for key, value in dctnry.items(): aggregated[key] = value`. -/
def updateAll [DecidableEq κ] (agg d : Dict κ ν) : Dict κ ν :=
  d.foldl (fun a p => setItem a p.1 p.2) agg

/-- `flaggregate`: left-to-right fold of the dicts (plus the kwargs dict
when non-empty) with overwrite-on-conflict. -/
def flaggregate [DecidableEq κ] (dcts : List (Dict κ ν)) (kwargs : Dict κ ν) :
    Dict κ ν :=
  let dctnrs := if kwargs.isEmpty then dcts else dcts ++ [kwargs]
  dctnrs.foldl updateAll []

/-- `naggregate`: per-top-level-key merge one level down; the
`defaultdict(dict)` read of `aggregated[tlky]` is `getD _ _ []`. -/
def naggregate [DecidableEq κ] (nstd : List (Dict κ (Dict κ ν))) :
    Dict κ (Dict κ ν) :=
  nstd.foldl
    (fun agg d =>
      d.foldl (fun a p => setItem a p.1 (updateAll (getD a p.1 []) p.2)) agg)
    []

/-! ### `maggregate` (core.py lines 552-801) -/

/-- Insertion-order key set of a `{**d1, **d2, **d3}` merge: first
occurrences kept. -/
def dedupFirst [DecidableEq κ] : List κ → List κ
  | [] => []
  | k :: rest => k :: dedupFirst (rest.filter (fun x => x ≠ k))
termination_by l => l.length
decreasing_by
  have := List.length_filter_le (fun x => decide (x ≠ k)) rest
  simp only [List.length_cons]
  omega

/-- Keys iterated by `for kwarg in {**aggregates, **nested_aggregates[tlky], **kwargs}`. -/
def unionKeys (D Nt K : DictV) : List Nat :=
  dedupFirst (keys D ++ keys Nt ++ keys K)

/-- `kwargs.get(kwarg)` when it is a dict: `isinstance(kwargs.get(kwarg), dict)`. -/
def getAsDict (K : DictV) (a : Nat) : Option DictV :=
  match lookup K a with
  | some (PyV.vdict d) => some d
  | _ => none

/-- Resolution of one `(tlky, kwarg)` pair, following the two branches of
the loop body exactly; `Except.error` models the unguarded
`aggregates[kwarg]` lookup raising `KeyError`. -/
def resolveAttr (D Nt K : DictV) (t a : Nat) : Except Unit PyV :=
  match getAsDict K a with
  | some kd =>
      match lookup kd t with
      | some v => Except.ok v
      | none =>
          match lookup Nt a with
          | some v => Except.ok v
          | none =>
              match lookup D a with
              | some v => Except.ok v
              | none => Except.ok PyV.vnone
  | none =>
      match lookup K a with
      | some v => Except.ok v
      | none =>
          match lookup Nt a with
          | some v => Except.ok v
          | none =>
              match lookup D a with
              | some v => Except.ok v
              | none => Except.error ()

/-- The inner `for kwarg in ...` loop for one top-level key: builds
`aggregated[tlky]`. -/
def attrsFor (D Nt K : DictV) (t : Nat) : Except Unit DictV :=
  (unionKeys D Nt K).foldlM
    (fun acc a => (resolveAttr D Nt K t a).map (fun v => setItem acc a v)) []

/-- The `for tlky in tlkys` loop over pre-merged sources.  A top-level key
only appears in the `defaultdict(dict)` output once something is assigned
under it, i.e. when its candidate attribute set is non-empty. -/
def maggregateCore (D : DictV) (N : DictN) (K : DictV) (tlkys : List Nat) :
    Except Unit DictN :=
  tlkys.foldlM
    (fun out t =>
      (attrsFor D (getD N t []) K t).map
        (fun attrs => if attrs.isEmpty then out else setItem out t attrs))
    []

/-- `maggregate`: pre-merge the flat dicts and the nested dicts, then
resolve every top-level key. -/
def maggregate (dcts : List DictV) (nstd : List DictN) (K : DictV)
    (tlkys : List Nat) : Except Unit DictN :=
  maggregateCore (flaggregate dcts []) (naggregate nstd) K tlkys

/-- Lookup in a nested dict: `out[t][a]` if both levels are present. -/
def lookup2 (out : DictN) (t a : Nat) : Option PyV :=
  match lookup out t with
  | some d => lookup d a
  | none => none

/-- Modelled from the spec claim: the stated resolution precedence for one
`(t, a)` pair — `K[a][t]` if `K[a]` is a mapping containing `t`; else
`K[a]` if present and not a mapping; else `N[t][a]`; else `D[a]`; else
`None`. -/
def resolveSpec (D Nt K : DictV) (t a : Nat) : PyV :=
  match getAsDict K a with
  | some kd =>
      match lookup kd t with
      | some v => v
      | none =>
          match lookup Nt a with
          | some v => v
          | none => (lookup D a).getD PyV.vnone
  | none =>
      match lookup K a with
      | some v => v
      | none =>
          match lookup Nt a with
          | some v => v
          | none => (lookup D a).getD PyV.vnone

/-! ### `depth` (core.py lines 37-89)

The breadth-first loop keeps a queue of `(id, obj, level)` triples and a
memo of visited object identities, and finally returns `level - 1` for the
last popped triple.  On tree-shaped values every object is a fresh
identity, so the memo never fires and the queue holds the values
themselves; object graphs with shared identities and cycles are modelled
separately below. -/

/-- A measure dominating the number of enqueueable objects strictly (for
termination of the BFS on trees). -/
def PyV.size : PyV → Nat
  | .vnone => 1
  | .vint _ => 1
  | .vdict [] => 1
  | .vdict ((_, v) :: rest) => 1 + PyV.size v + PyV.size (.vdict rest)

/-- The `while queue` loop: pop `(obj, level)`, enqueue the values of dict
objects one level deeper, and remember the level of the last popped
element; returns `level - 1`. -/
def bfsAux : List (PyV × Nat) → Nat → Nat
  | [], last => last - 1
  | (PyV.vdict es, l) :: rest, _ =>
      bfsAux (rest ++ es.map (fun p => (p.2, l + 1))) l
  | (_, l) :: rest, _ => bfsAux rest l
termination_by q _ => (q.map (fun p => PyV.size p.1)).sum
decreasing_by
  · simp only [List.map_append, List.sum_append, List.map_cons, List.sum_cons]
    have h1 : ∀ es2 : List (Nat × PyV),
        ((es2.map (fun p => ((p.2 : PyV), l + 1))).map (fun p => PyV.size p.1)).sum
          < PyV.size (PyV.vdict es2) := by
      intro es2
      induction es2 with
      | nil => simp [PyV.size]
      | cons q qs ih =>
          cases q with
          | mk a b =>
              simp only [List.map_cons, List.sum_cons, PyV.size] at *
              omega
    have h2 := h1 es
    omega
  all_goals
    simp only [List.map_cons, List.sum_cons]
    have hp : ∀ w : PyV, 0 < PyV.size w := by
      intro w
      cases w with
      | vnone => simp [PyV.size]
      | vint n => simp [PyV.size]
      | vdict es2 =>
          cases es2 with
          | nil => simp [PyV.size]
          | cons q qs =>
              cases q with
              | mk a b => simp only [PyV.size]; omega
    exact Nat.lt_add_of_pos_left (hp _)

/-- `depth`: `TypeError` on a non-dict argument, otherwise run the BFS
from `(dct, 1)`. -/
def depth (v : PyV) : Except Unit Nat :=
  match v with
  | PyV.vdict _ => Except.ok (bfsAux [(v, 1)] 0)
  | _ => Except.error ()

/-- Level of the deepest queue element ever popped when `v` enters the
queue at level `l` (proof device for the BFS). -/
def maxLevel : PyV → Nat → Nat
  | .vdict [], l => l
  | .vdict ((_, v) :: rest), l =>
      max (maxLevel v (l + 1)) (maxLevel (.vdict rest) l)
  | _, l => l

/-- Modelled from the spec: the recursive depth
`depth({}) = 0`, `depth(d) = 1 + max(depth(v) for mapping values v, default 0)`;
non-mapping values only occur below the top level and contribute nothing. -/
def depthRec : PyV → Nat
  | .vnone => 0
  | .vint _ => 0
  | .vdict [] => 0
  | .vdict ((_, PyV.vdict es2) :: rest) =>
      max (1 + depthRec (.vdict es2)) (depthRec (.vdict rest))
  | .vdict ((_, _) :: rest) => max 1 (depthRec (.vdict rest))

/-- Modelled from the spec: `max(depth(v) for v in values if v is a mapping, default 0)`. -/
def mdMaxSpec (es : List (Nat × PyV)) : Nat :=
  (es.filterMap
      (fun p =>
        match p.2 with
        | PyV.vdict es2 => some (depthRec (PyV.vdict es2))
        | _ => none)).foldr max 0

/-! ### `depth` on object graphs with shared identities (C6)

Objects are nodes of a finite graph: node `i` is either a non-dict object
(`none`) or a dict whose values are the nodes `ch` (`some ch`).  This is
the object-identity view of the same loop: the memo set now matters, and
cycles are possible.  The loop is run on a fuel budget large enough to be
shown sufficient for every graph. -/

/-- An object: `none` = non-dict, `some ch` = dict with value objects `ch`. -/
abbrev GObj := Option (List Nat)

/-- A finite object graph; the object id is the list index. -/
abbrev Graph := List GObj

/-- The BFS loop with visited-identity memo, on a fuel budget; `none`
means the fuel ran out. -/
def bfsG (g : Graph) : Nat → List Nat → List (Nat × Nat) → Nat → Option Nat
  | 0, _, _, _ => none
  | _ + 1, _, [], last => some (last - 1)
  | fuel + 1, memo, (i, l) :: rest, _ =>
      if i ∈ memo then bfsG g fuel memo rest l
      else
        match (g.get? i).getD none with
        | some ch => bfsG g fuel (i :: memo) (rest ++ ch.map (fun c => (c, l + 1))) l
        | none => bfsG g fuel (i :: memo) rest l

/-- Largest number of values of any dict object. -/
def maxFan (g : Graph) : Nat := (g.map (fun o => (o.getD []).length)).foldr max 0

/-- Every object id the BFS can ever enqueue. -/
def allIds (g : Graph) (root : Nat) : List Nat :=
  root :: (g.map (fun o => o.getD [])).flatten

/-- A fuel budget sufficient for every graph. -/
def fuelBound (g : Graph) (root : Nat) : Nat :=
  (allIds g root).toFinset.card * (maxFan g + 1) + 2

/-- `depth` on an object graph: `TypeError` when the root is not a dict. -/
def depthG (g : Graph) (root : Nat) : Except Unit (Option Nat) :=
  match (g.get? root).getD none with
  | some _ => Except.ok (bfsG g (fuelBound g root) [] [(root, 1)] 0)
  | none => Except.error ()

/-! ### `to_dataframe` (core.py lines 804-889)

`zip_longest(*([iter(xs)] * length))` cuts `xs` into consecutive chunks of
size `length`, padding the last chunk with `fillvalue`; `list(zip(*...))`
transposes, truncating at the shortest row.  The pandas objects are
modelled column-major: `DataFrame(rows)` stores labelled columns,
`concat(axis="columns")` appends them, `table[list(range(columns))]`
selects, for each wanted label in order, every column carrying that label
(`KeyError` when a label is missing), and assigning `table.columns`
demands the exact length. -/

/-- `ceilDiv m c = math.ceil(m / c)` for `c > 0`. -/
def ceilDiv (m c : Nat) : Nat := (m + c - 1) / c

/-- Consecutive chunks of size `L1 + 1`, the last padded with `fill`. -/
def chunkPad (fill : α) (L1 : Nat) : List α → List (List α)
  | [] => []
  | x :: xs =>
      ((x :: xs).take (L1 + 1) ++ List.replicate ((L1 + 1) - (x :: xs).length) fill)
        :: chunkPad fill L1 ((x :: xs).drop (L1 + 1))
termination_by l => l.length
decreasing_by
  simp only [List.length_drop, List.length_cons]
  omega

/-- `list(zip_longest(*([iter(xs)] * L), fillvalue=fill))`: chunk size `L`;
with `L = 0` the argument list is empty and `zip_longest()` yields nothing. -/
def grouper (xs : List α) (L : Nat) (fill : α) : List (List α) :=
  match L with
  | 0 => []
  | L1 + 1 => chunkPad fill L1 xs

/-- `list(zip(*ls))`: transpose truncating at the shortest list; `zip()`
of no arguments yields nothing. -/
def transposeZ : List (List α) → List (List α)
  | [] => []
  | l0 :: rest =>
      if h : (l0 :: rest).all (fun l => !l.isEmpty) then
        (l0 :: rest).filterMap List.head? :: transposeZ ((l0 :: rest).map List.tail)
      else []
termination_by ls => (ls.headD []).length
decreasing_by
  simp only [List.map_cons, List.headD_cons, List.all_cons, Bool.and_eq_true,
    Bool.not_eq_true', List.isEmpty_eq_false] at *
  cases l0 with
  | nil => exact absurd rfl h.1
  | cons a as => simp

/-- A pandas DataFrame, column-major: column labels and columns. -/
structure DF (lbl : Type) (α : Type) where
  labels : List lbl
  cols : List (List α)

/-- `pd.DataFrame(rows)`: columns labelled `0, 1, ...` holding the
transposed rows. -/
def dfOfRows (rows : List (List α)) : DF Nat α :=
  ⟨List.range (rows.headD []).length, transposeZ rows⟩

/-- `pd.concat([d1, d2], axis="columns")`. -/
def dfConcat (d1 d2 : DF Nat α) : DF Nat α :=
  ⟨d1.labels ++ d2.labels, d1.cols ++ d2.cols⟩

/-- `table[want]`: for each wanted label in order, all columns carrying
that label; `KeyError` when a label has no column. -/
def dfSelect (d : DF Nat α) (want : List Nat) : Except Unit (DF Nat α) :=
  if want.all (fun j => decide (j ∈ d.labels)) then
    Except.ok
      ⟨want.flatMap (fun j =>
          ((d.labels.zip d.cols).filter (fun p => decide (p.1 = j))).map Prod.fst),
       want.flatMap (fun j =>
          ((d.labels.zip d.cols).filter (fun p => decide (p.1 = j))).map Prod.snd)⟩
  else Except.error ()

/-- `table.columns = ls`: pandas requires the exact number of labels. -/
def dfRelabel (d : DF Nat α) (ls : List String) : Except Unit (DF String α) :=
  if ls.length = d.cols.length then Except.ok ⟨ls, d.cols⟩ else Except.error ()

/-- `to_dataframe(mapping, columns, fillvalue)`. -/
def to_dataframe (mp : List (α × α)) (c : Nat) (fill : α) :
    Except Unit (DF String α) :=
  let L := ceilDiv mp.length c
  let keyRows := transposeZ (grouper (mp.map Prod.fst) L fill)
  let valRows := transposeZ (grouper (mp.map Prod.snd) L fill)
  let table := dfConcat (dfOfRows keyRows) (dfOfRows valRows)
  match dfSelect table (List.range c) with
  | Except.ok t2 => dfRelabel t2 (List.replicate c ["key", "value"]).flatten
  | Except.error e => Except.error e

/-- The `j`-th padded chunk of `xs`, as the spec describes the partition:
entries `j*L, ..., j*L + L - 1` in iteration order, the short last chunk
padded with `fill`. -/
def paddedChunk (xs : List α) (L : Nat) (fill : α) (j : Nat) : List α :=
  (xs.drop (j * L)).take L ++ List.replicate (L - (xs.length - j * L)) fill

/-! ### Store model: mutation behaviour of every function (C4)

Dictionaries live at addresses in a store; values are either scalars,
`None`, or references to other dict objects.  Each function is translated
a second time in state-passing style, performing exactly the writes the
source performs (`tmp_dct.update(...)`, `dctnry[key] = dctnry.pop(...)`,
`aggregated[tlky][kwarg] = ...`, `defaultdict` entry creation, `dict(...)`
copies); reads never modify the store.  The frame theorem states that all
writes target addresses allocated during the call. -/

/-- A stored value: scalar, `None`, or a reference to a dict object. -/
inductive Val : Type where
  | scal : Nat → Val
  | vnone : Val
  | ref : Nat → Val
deriving DecidableEq

/-- Contents of one dict object. -/
abbrev DictM := List (Key × Val)

/-- The object store: allocation counter and contents per address. -/
structure Store : Type where
  next : Nat
  mem : Dict Nat DictM

/-- Contents at an address (unallocated addresses read as empty). -/
def readS (σ : Store) (a : Nat) : DictM := (lookup σ.mem a).getD []

/-- Overwrite the dict object at an address. -/
def writeS (σ : Store) (a : Nat) (d : DictM) : Store :=
  ⟨σ.next, setItem σ.mem a d⟩

/-- Create a fresh dict object. -/
def allocS (σ : Store) (d : DictM) : Store × Nat :=
  (⟨σ.next + 1, setItem σ.mem σ.next d⟩, σ.next)

/-- `kfltr` on one dict: fresh `tmp_dct`, filled from the input's items. -/
def kfltrOneS (σ : Store) (fltr : Key) (xcptns : List Key) (a : Nat) :
    Store × Nat :=
  let p1 := allocS σ []
  let σ2 := (readS p1.1 a).foldl
    (fun σc p =>
      if containsSub p.1 fltr || decide (p.1 ∈ xcptns) then
        writeS σc p1.2 (setItem (readS σc p1.2) p.1 p.2)
      else σc)
    p1.1
  (σ2, p1.2)

/-- `kfltr`: the kwargs dict is assembled fresh by the call itself and
appended to the inputs when non-empty. -/
def kfltrS (σ : Store) (addrs : List Nat) (fltr : Key) (xcptns : List Key)
    (kwargs : DictM) : Store × List Nat :=
  let pk := allocS σ kwargs
  let dcts := if kwargs.isEmpty then addrs else addrs ++ [pk.2]
  dcts.foldl
    (fun st a =>
      let p2 := kfltrOneS st.1 fltr xcptns a
      (p2.1, st.2 ++ [p2.2]))
    (pk.1, [])

/-- `kfrep` on one dict: `dctnry = dctnry.copy()`, then over a snapshot of
the keys, `dctnry[key.replace(fnd, rplc)] = dctnry.pop(key)` for matches. -/
def kfrepOneS (σ : Store) (fnd rplc : Key) (xcptns : List Key) (a : Nat) :
    Store × Nat :=
  let p1 := allocS σ (readS σ a)
  let σ2 := (keys (readS p1.1 p1.2)).foldl
    (fun σc k =>
      if kfrepMatch fnd xcptns k then
        match lookup (readS σc p1.2) k with
        | some v =>
            writeS σc p1.2
              (setItem (popItem (readS σc p1.2) k) (pyReplace k fnd rplc) v)
        | none => σc
      else σc)
    p1.1
  (σ2, p1.2)

/-- `kfrep` over the dict container plus the fresh kwargs dict. -/
def kfrepS (σ : Store) (addrs : List Nat) (fnd rplc : Key) (xcptns : List Key)
    (kwargs : DictM) : Store × List Nat :=
  let pk := allocS σ kwargs
  let dcts := if kwargs.isEmpty then addrs else addrs ++ [pk.2]
  dcts.foldl
    (fun st a =>
      let p2 := kfrepOneS st.1 fnd rplc xcptns a
      (p2.1, st.2 ++ [p2.2]))
    (pk.1, [])

/-- `defaultdict(dict)` access `agg[k]` in the store: return the inner
dict's address, creating a fresh inner dict on first access. -/
def ddAccess (σ : Store) (agg : Nat) (k : Key) : Store × Nat :=
  match lookup (readS σ agg) k with
  | some (Val.ref ib) => (σ, ib)
  | _ =>
      let pf := allocS σ []
      (writeS pf.1 agg (setItem (readS pf.1 agg) k (Val.ref pf.2)), pf.2)

/-- `kswap`: `key_swapped[subkey].update({tlkey: value})` into a fresh
`defaultdict(dict)`, then `dict(key_swapped)` as a fresh copy. -/
def kswapS (σ : Store) (a : Nat) : Store × Nat :=
  let p1 := allocS σ []
  let σ2 := (readS p1.1 a).foldl
    (fun σc p =>
      match p.2 with
      | Val.ref ia =>
          (readS σc ia).foldl
            (fun σd q =>
              let pe := ddAccess σd p1.2 q.1
              writeS pe.1 pe.2 (setItem (readS pe.1 pe.2) p.1 q.2))
            σc
      | _ => σc)
    p1.1
  let p3 := allocS σ2 (readS σ2 p1.2)
  (p3.1, p3.2)

/-- `flaggregate`: fold every dict (and the fresh kwargs dict) into a
fresh `aggregated` dict. -/
def flaggregateS (σ : Store) (addrs : List Nat) (kwargs : DictM) :
    Store × Nat :=
  let pk := allocS σ kwargs
  let dcts := if kwargs.isEmpty then addrs else addrs ++ [pk.2]
  let p1 := allocS pk.1 []
  let σ2 := dcts.foldl
    (fun σc a =>
      (readS σc a).foldl
        (fun σd p => writeS σd p1.2 (setItem (readS σd p1.2) p.1 p.2))
        σc)
    p1.1
  (σ2, p1.2)

/-- `naggregate`: `aggregated[tlky][key] = value` into a fresh
`defaultdict(dict)`, then `dict(aggregated)`.  (Outer values are dict
references for well-typed depth-1 input; a scalar outer value would make
the source raise before writing, so it writes nothing here.) -/
def naggregateS (σ : Store) (addrs : List Nat) : Store × Nat :=
  let p1 := allocS σ []
  let σ2 := addrs.foldl
    (fun σc a =>
      (readS σc a).foldl
        (fun σd p =>
          match p.2 with
          | Val.ref ia =>
              (readS σd ia).foldl
                (fun σe q =>
                  let pf := ddAccess σe p1.2 p.1
                  writeS pf.1 pf.2 (setItem (readS pf.1 pf.2) q.1 q.2))
                σd
          | _ => σd)
        σc)
    p1.1
  let p3 := allocS σ2 (readS σ2 p1.2)
  (p3.1, p3.2)

/-- One `(tlky, kwarg)` resolution in the store (read-only): `none`
models the `KeyError` of the final `aggregates[kwarg]` lookup, which the
safety analysis shows unreachable. -/
def resolveValS (σ : Store) (da nta kwa : Nat) (t kw : Key) : Option Val :=
  match lookup (readS σ kwa) kw with
  | some (Val.ref kd) =>
      match lookup (readS σ kd) t with
      | some v => some v
      | none =>
          match lookup (readS σ nta) kw with
          | some v => some v
          | none =>
              match lookup (readS σ da) kw with
              | some v => some v
              | none => some Val.vnone
  | some v => some v
  | none =>
      match lookup (readS σ nta) kw with
      | some v => some v
      | none => lookup (readS σ da) kw

/-- `maggregate` in the store: pre-merge, `defaultdict` wrappers, the
double loop of `aggregated[tlky][kwarg] = ...` writes, and the final
`dict(aggregated)` copy. -/
def maggregateS (σ : Store) (tlkys : List Key) (dctAddrs nstdAddrs : List Nat)
    (kwargs : DictM) : Store × Nat :=
  let pk := allocS σ kwargs
  let p1 := allocS pk.1 []
  let p2 := flaggregateS p1.1 dctAddrs []
  let p3 := naggregateS p2.1 nstdAddrs
  let p4 := allocS p3.1 (readS p3.1 p3.2)
  let σ5 := tlkys.foldl
    (fun σc t =>
      let pn := ddAccess σc p4.2 t
      let unionK :=
        dedupFirst (keys (readS pn.1 p2.2) ++ keys (readS pn.1 pn.2)
          ++ keys (readS pn.1 pk.2))
      unionK.foldl
        (fun σf kw =>
          match resolveValS σf p2.2 pn.2 pk.2 t kw with
          | some v =>
              let pg := ddAccess σf p1.2 t
              writeS pg.1 pg.2 (setItem (readS pg.1 pg.2) kw v)
          | none => σf)
        pn.1)
    p4.1
  let p6 := allocS σ5 (readS σ5 p1.2)
  (p6.1, p6.2)

/-- `depth` in the store: the BFS only reads; the store passes through
unchanged because the source performs no writes. -/
def depthSAux (σ : Store) : Nat → List Nat → List (Val × Nat) → Nat → Option Nat
  | 0, _, _, _ => none
  | _ + 1, _, [], last => some (last - 1)
  | fuel + 1, memo, (v, l) :: rest, _ =>
      match v with
      | Val.ref i =>
          if i ∈ memo then depthSAux σ fuel memo rest l
          else
            depthSAux σ fuel (i :: memo)
              (rest ++ (readS σ i).map (fun p => (p.2, l + 1))) l
      | _ => depthSAux σ fuel memo rest l

/-- Fuel that dominates the number of loop iterations for `depthS`. -/
def depthFuel (σ : Store) : Nat :=
  (σ.mem.map (fun p => p.2.length + 1)).sum + 2

/-- `depth` on a dict object in the store. -/
def depthS (σ : Store) (a : Nat) : Store × Option Nat :=
  (σ, depthSAux σ (depthFuel σ) [] [(Val.ref a, 1)] 0)

/-- Table cells of the store-level `to_dataframe`: keys or values. -/
abbrev CellS := Key ⊕ Val

/-- `to_dataframe` in the store: builds the table from the mapping's items
without writing. -/
def to_dataframeS (σ : Store) (a : Nat) (c : Nat) (fill : CellS) :
    Store × Except Unit (DF String CellS) :=
  (σ, to_dataframe
        ((readS σ a).map (fun p => (Sum.inl p.1, Sum.inr p.2))) c fill)

/-- `σ` extends `σ0`: allocation only moved forward, and every object
allocated before the call (address below `σ0.next`) still holds exactly
the entries it held in `σ0`. -/
def FrameFrom (σ0 σ : Store) : Prop :=
  σ0.next ≤ σ.next ∧ ∀ a, a < σ0.next → readS σ a = readS σ0 a

/-- Invariant of a `defaultdict(dict)` object during its fill loop: it
lives below the allocation frontier and its values are references to
strictly younger, already-allocated inner dicts. -/
def DDInv (σ : Store) (agg : Nat) : Prop :=
  agg < σ.next ∧ ∀ k ib, lookup (readS σ agg) k = some (Val.ref ib) →
    agg < ib ∧ ib < σ.next

/-! ### Proof-side descriptions used in theorem statements -/

/-- What `kfrep` leaves at key `k` after processing the snapshot prefix
`P`: the value of the last prefix key renamed onto `k` if any; otherwise
the original entry, removed when `k` is a processed matching key. -/
def kfrepSpecP (fnd rplc : Key) (xcptns : List Key) (d0 : DictS) (P : List Key)
    (k : Key) : Option Nat :=
  match P.reverse.find?
      (fun k2 => kfrepMatch fnd xcptns k2 && decide (pyReplace k2 fnd rplc = k)) with
  | some k2 => lookup d0 k2
  | none =>
      match lookup d0 k with
      | some v => if kfrepMatch fnd xcptns k ∧ k ∈ P then none else some v
      | none => none

/-- The claim's description of `kfrep`'s output at key `k`: renamed keys
carry their values (last rename wins), untouched keys keep theirs, matched
originals disappear. -/
def kfrepSpec (fnd rplc : Key) (xcptns : List Key) (d0 : DictS) (k : Key) :
    Option Nat :=
  kfrepSpecP fnd rplc xcptns d0 (keys d0) k

/-- `x[o][i]` on a dict whose values should be dicts. -/
def lookup2v (d : Dict Nat PyV) (o i : Nat) : Option PyV :=
  match lookup d o with
  | some (PyV.vdict sub) => lookup sub i
  | _ => none

/-- The attribute dict `maggregate` builds for one top-level key
(proof device; total since resolution never fails on iterated keys). -/
def attrsVal (D : DictV) (N : DictN) (K : DictV) (t : Nat) : DictV :=
  match attrsFor D (getD N t []) K t with
  | Except.ok r => r
  | Except.error _ => []

/-! ## Lemmas about the dict primitives -/

section DictLemmas

variable {κ ν : Type} [DecidableEq κ]

theorem lookup_setItem_self (d : Dict κ ν) (k : κ) (v : ν) :
    lookup (setItem d k v) k = some v := by
  induction d with
  | nil => simp [setItem, lookup]
  | cons p rest ih =>
      by_cases h : p.1 = k
      · simp [setItem, h, lookup]
      · simp [setItem, h, lookup, ih]

theorem lookup_setItem_ne (d : Dict κ ν) {k j : κ} (v : ν) (h : j ≠ k) :
    lookup (setItem d k v) j = lookup d j := by
  induction d with
  | nil => simp [setItem, lookup, Ne.symm h]
  | cons p rest ih =>
      by_cases hp : p.1 = k
      · simp only [setItem, hp, if_pos rfl]
        simp [lookup, Ne.symm h, hp]
      · simp only [setItem, hp, if_neg hp]
        by_cases hj : p.1 = j
        · simp [lookup, hj]
        · simp [lookup, hj, ih]

theorem lookup_popItem_ne (d : Dict κ ν) {k j : κ} (h : j ≠ k) :
    lookup (popItem d k) j = lookup d j := by
  induction d with
  | nil => simp [popItem]
  | cons p rest ih =>
      by_cases hp : p.1 = k
      · simp only [popItem, if_pos hp]
        have hpj : p.1 ≠ j := by rw [hp]; exact Ne.symm h
        simp [lookup, hpj]
      · simp only [popItem, if_neg hp]
        by_cases hj : p.1 = j
        · simp [lookup, hj]
        · simp [lookup, hj, ih]

theorem mem_keys_iff_lookup (d : Dict κ ν) (k : κ) :
    k ∈ keys d ↔ (lookup d k).isSome := by
  induction d with
  | nil => simp [keys, lookup]
  | cons p rest ih =>
      rw [show keys (p :: rest) = p.1 :: keys rest from rfl, List.mem_cons,
        show lookup (p :: rest) k
          = if p.1 = k then some p.2 else lookup rest k from rfl]
      by_cases hp : p.1 = k
      · simp [hp]
      · simp [hp, Ne.symm hp, ih]

theorem lookup_eq_none_iff (d : Dict κ ν) (k : κ) :
    lookup d k = none ↔ k ∉ keys d := by
  rw [mem_keys_iff_lookup]
  cases h : lookup d k <;> simp

theorem keys_setItem_mem (d : Dict κ ν) (k : κ) (v : ν) (h : k ∈ keys d) :
    keys (setItem d k v) = keys d := by
  induction d with
  | nil => simp [keys] at h
  | cons p rest ih =>
      by_cases hp : p.1 = k
      · simp [setItem, hp, keys]
      · simp only [keys, List.map_cons, List.mem_cons] at h
        rcases h with h | h
        · exact absurd h.symm hp
        · simp only [setItem, if_neg hp, keys, List.map_cons]
          rw [show List.map Prod.fst (setItem rest k v) = keys (setItem rest k v)
            from rfl, ih h]
          rfl

theorem keys_setItem_not_mem (d : Dict κ ν) (k : κ) (v : ν) (h : k ∉ keys d) :
    keys (setItem d k v) = keys d ++ [k] := by
  induction d with
  | nil => simp [setItem, keys]
  | cons p rest ih =>
      simp only [keys, List.map_cons, List.mem_cons, not_or] at h
      simp only [setItem, if_neg (Ne.symm h.1), keys, List.map_cons]
      rw [show List.map Prod.fst (setItem rest k v) = keys (setItem rest k v)
        from rfl, ih (by simpa [keys] using h.2)]
      rfl

theorem nodup_keys_setItem (d : Dict κ ν) (k : κ) (v : ν)
    (h : (keys d).Nodup) : (keys (setItem d k v)).Nodup := by
  by_cases hm : k ∈ keys d
  · rw [keys_setItem_mem d k v hm]; exact h
  · rw [keys_setItem_not_mem d k v hm]
    simpa [List.nodup_append] using ⟨h, hm⟩

theorem keys_popItem_sublist (d : Dict κ ν) (k : κ) :
    (keys (popItem d k)).Sublist (keys d) := by
  induction d with
  | nil => simp [popItem]
  | cons p rest ih =>
      by_cases hp : p.1 = k
      · simp only [popItem, if_pos hp, keys, List.map_cons]
        exact (List.sublist_cons_self _ _)
      · simp only [popItem, if_neg hp, keys, List.map_cons]
        exact List.Sublist.cons₂ _ ih

theorem nodup_keys_popItem (d : Dict κ ν) (k : κ) (h : (keys d).Nodup) :
    (keys (popItem d k)).Nodup :=
  (keys_popItem_sublist d k).nodup h

theorem lookup_popItem_self (d : Dict κ ν) (k : κ) (h : (keys d).Nodup) :
    lookup (popItem d k) k = none := by
  induction d with
  | nil => simp [popItem, lookup]
  | cons p rest ih =>
      simp only [keys, List.map_cons, List.nodup_cons] at h
      by_cases hp : p.1 = k
      · simp only [popItem, if_pos hp]
        rw [lookup_eq_none_iff]
        exact hp ▸ h.1
      · simp [popItem, hp, lookup, ih h.2]

theorem lookup_append (d1 d2 : Dict κ ν) (k : κ) :
    lookup (d1 ++ d2) k = (lookup d1 k).orElse (fun _ => lookup d2 k) := by
  induction d1 with
  | nil => simp [lookup]
  | cons p rest ih =>
      by_cases hp : p.1 = k
      · simp [lookup, hp]
      · simp [lookup, hp, ih]

theorem lookup_reverse_of_nodup (d : Dict κ ν) (k : κ)
    (h : (keys d).Nodup) : lookup d.reverse k = lookup d k := by
  induction d with
  | nil => rfl
  | cons p rest ih =>
      simp only [keys, List.map_cons, List.nodup_cons] at h
      rw [List.reverse_cons, lookup_append, ih h.2]
      by_cases hp : p.1 = k
      · have : lookup rest k = none := by
          rw [lookup_eq_none_iff]
          exact hp ▸ h.1
        simp [this, lookup, hp]
      · cases hr : lookup rest k <;> simp [lookup, hp, hr]

theorem lookup_map_values {μ : Type} (d : Dict κ ν) (f : ν → μ) (k : κ) :
    lookup (d.map (fun p => (p.1, f p.2))) k = (lookup d k).map f := by
  induction d with
  | nil => simp [lookup]
  | cons p rest ih =>
      by_cases hp : p.1 = k
      · simp [lookup, hp]
      · simp [lookup, hp, ih]

end DictLemmas

/-! ## `flaggregate`: fold lemmas and claim C7 -/

section Flag

variable {κ ν : Type} [DecidableEq κ]

theorem lookup_updateAll (agg d : Dict κ ν) (k : κ) :
    lookup (updateAll agg d) k
      = (lookup d.reverse k).orElse (fun _ => lookup agg k) := by
  induction d using List.reverseRecOn with
  | nil => simp [updateAll, lookup]
  | append_singleton d p ih =>
      unfold updateAll at *
      rw [List.foldl_append]
      simp only [List.foldl_cons, List.foldl_nil, List.reverse_append,
        List.reverse_cons, List.reverse_nil, List.nil_append, List.cons_append]
      by_cases hp : p.1 = k
      · rw [hp, lookup_setItem_self]
        simp [lookup, hp]
      · rw [lookup_setItem_ne _ _ (Ne.symm hp), ih]
        simp [lookup, hp]

theorem nodup_keys_updateAll (agg d : Dict κ ν) (h : (keys agg).Nodup) :
    (keys (updateAll agg d)).Nodup := by
  induction d generalizing agg with
  | nil => exact h
  | cons p rest ih =>
      unfold updateAll at *
      rw [List.foldl_cons]
      exact ih _ (nodup_keys_setItem _ _ _ h)

/-- C7: `flaggregate` is a left-to-right last-writer-wins fold,
associative in effect — merging `[A, B]` first and then folding with `C`
agrees (as a mapping) with merging `[A, B, C]` — but not commutative:
`[{0: 1}, {0: 2}]` and `[{0: 2}, {0: 1}]` merge to different mappings at
their shared key `0`. -/
theorem flaggregate_assoc_effect_not_comm :
    (∀ A B C : Dict Nat Nat, ∀ k,
        lookup (flaggregate [flaggregate [A, B] [], C] []) k
          = lookup (flaggregate [A, B, C] []) k)
    ∧ 0 ∈ keys ([(0, 1)] : Dict Nat Nat)
    ∧ 0 ∈ keys ([(0, 2)] : Dict Nat Nat)
    ∧ lookup (flaggregate [[(0, 1)], [(0, 2)]] ([] : Dict Nat Nat)) 0
        ≠ lookup (flaggregate [[(0, 2)], [(0, 1)]] ([] : Dict Nat Nat)) 0 := by
  refine ⟨?_, by decide, by decide, by decide⟩
  intro A B C k
  show lookup (updateAll (updateAll ([] : Dict Nat Nat)
      (updateAll (updateAll [] A) B)) C) k
    = lookup (updateAll (updateAll (updateAll [] A) B) C) k
  rw [lookup_updateAll, lookup_updateAll (updateAll (updateAll [] A) B) C]
  have h1 : lookup (updateAll ([] : Dict Nat Nat)
      (updateAll (updateAll [] A) B)) k
      = lookup (updateAll (updateAll ([] : Dict Nat Nat) A) B) k := by
    rw [lookup_updateAll]
    rw [lookup_reverse_of_nodup _ _
      (nodup_keys_updateAll _ _ (nodup_keys_updateAll _ _ (by simp [keys])))]
    cases lookup (updateAll (updateAll ([] : Dict Nat Nat) A) B) k <;>
      simp [lookup]
  rw [h1]

end Flag

/-! ## `depth` on trees: the BFS computes the recursive depth (C5) -/

section Depth

theorem size_pos (v : PyV) : 0 < PyV.size v := by
  cases v with
  | vnone => simp [PyV.size]
  | vint n => simp [PyV.size]
  | vdict es =>
      cases es with
      | nil => simp [PyV.size]
      | cons q qs =>
          cases q with
          | mk a b => simp only [PyV.size]; omega

theorem sum_children_lt (es : List (Nat × PyV)) (l : Nat) :
    ((es.map (fun p => ((p.2 : PyV), l + 1))).map (fun p => PyV.size p.1)).sum
      < PyV.size (PyV.vdict es) := by
  induction es with
  | nil => simp [PyV.size]
  | cons q qs ih =>
      cases q with
      | mk a b =>
          simp only [List.map_cons, List.sum_cons, PyV.size] at *
          omega

theorem maxLevel_ge (v : PyV) (l : Nat) : l ≤ maxLevel v l := by
  induction v, l using maxLevel.induct with
  | case1 l => simp [maxLevel]
  | case2 a v rest l ih1 ih2 =>
      simp only [maxLevel]
      omega
  | case3 x l h1 h2 =>
      cases x with
      | vnone => simp [maxLevel]
      | vint n => simp [maxLevel]
      | vdict es =>
          cases es with
          | nil => exact (h1 rfl).elim
          | cons q qs => exact (h2 q.1 q.2 qs rfl).elim

theorem maxLevel_vdict (es : List (Nat × PyV)) (l : Nat) :
    maxLevel (PyV.vdict es) l
      = max l ((es.map (fun p => maxLevel p.2 (l + 1))).foldr max 0) := by
  induction es with
  | nil => simp [maxLevel]
  | cons q qs ih =>
      cases q with
      | mk a b =>
          simp only [maxLevel, List.map_cons, List.foldr_cons, ih]
          omega

theorem maxLevel_eq (v : PyV) (l : Nat) : maxLevel v l = l + depthRec v := by
  induction v, l using maxLevel.induct with
  | case1 l => simp [maxLevel, depthRec]
  | case2 a v rest l ih1 ih2 =>
      cases v with
      | vnone => simp only [maxLevel, depthRec] at *; omega
      | vint n => simp only [maxLevel, depthRec] at *; omega
      | vdict es2 => simp only [maxLevel, depthRec] at *; omega
  | case3 x l h1 h2 =>
      cases x with
      | vnone => simp [maxLevel, depthRec]
      | vint n => simp [maxLevel, depthRec]
      | vdict es =>
          cases es with
          | nil => exact (h1 rfl).elim
          | cons q qs => exact (h2 q.1 q.2 qs rfl).elim

theorem foldr_max_init (L : List Nat) (b : Nat) :
    L.foldr max b = max b (L.foldr max 0) := by
  induction L with
  | nil => simp
  | cons a L ih => simp only [List.foldr_cons, ih]; omega

theorem le_foldr_max {x : Nat} {L : List Nat} (h : x ∈ L) :
    x ≤ L.foldr max 0 := by
  induction L with
  | nil => simp at h
  | cons a L ih =>
      simp only [List.foldr_cons]
      rcases List.mem_cons.mp h with h | h
      · omega
      · have := ih h; omega

theorem mem_map_levels {es : List (Nat × PyV)} {c : Nat} {x : PyV × Nat}
    (h : x ∈ es.map (fun p => ((p.2 : PyV), c))) : x.2 = c := by
  rcases List.mem_map.mp h with ⟨p, _, rfl⟩
  rfl

theorem chain_levels_const (es : List (Nat × PyV)) (c : Nat) :
    List.Chain' (fun a b => a.2 ≤ b.2) (es.map (fun p => ((p.2 : PyV), c))) := by
  induction es with
  | nil => simp
  | cons q qs ih =>
      rw [List.map_cons, List.chain'_cons']
      refine ⟨?_, ih⟩
      intro y hy
      have h2 : y.2 = c := mem_map_levels (List.mem_of_mem_head? hy)
      simp [h2]

/-- Core evaluation of the BFS loop: on a level-monotone queue it returns
the deepest popped level minus one. -/
theorem bfsAux_eval (n : Nat) :
    ∀ (q : List (PyV × Nat)) (last : Nat),
      (q.map (fun p => PyV.size p.1)).sum ≤ n →
      q ≠ [] →
      List.Chain' (fun a b => a.2 ≤ b.2) q →
      (∀ x ∈ q, ∀ h0 ∈ q.head?, x.2 ≤ h0.2 + 1) →
      bfsAux q last = (q.map (fun p => maxLevel p.1 p.2)).foldr max 0 - 1 := by
  induction n using Nat.strong_induction_on with
  | _ n ih =>
      intro q last hsum hne hchain hbound
      match q with
      | [] => exact absurd rfl hne
      | (v, l) :: rest =>
          have hsize := size_pos v
          cases v with
          | vdict es =>
              rw [show bfsAux ((PyV.vdict es, l) :: rest) last
                  = bfsAux (rest ++ es.map (fun p => (p.2, l + 1))) l
                from by simp [bfsAux]]
              by_cases he : rest ++ es.map (fun p => ((p.2 : PyV), l + 1)) = []
              · rcases List.append_eq_nil.mp he with ⟨hr, hch⟩
                have hes : es = [] := List.map_eq_nil_iff.mp hch
                subst hr
                subst hes
                simp only [List.map_nil, List.append_nil, List.nil_append]
                rw [show bfsAux ([] : List (PyV × Nat)) l = l - 1
                  from by simp [bfsAux]]
                simp [maxLevel]
              · -- the children all sit at level `l + 1`
                have hch := sum_children_lt es l
                have hlt : ((rest ++ es.map (fun p => ((p.2 : PyV), l + 1))).map
                    (fun p => PyV.size p.1)).sum < n := by
                  simp only [List.map_append, List.sum_append] at *
                  simp only [List.map_cons, List.sum_cons] at hsum
                  omega
                have hchain2 : List.Chain' (fun a b => a.2 ≤ b.2)
                    (rest ++ es.map (fun p => ((p.2 : PyV), l + 1))) := by
                  rcases List.chain'_cons'.mp hchain with ⟨hlink, hrest⟩
                  rw [List.chain'_append]
                  refine ⟨hrest, chain_levels_const es (l + 1), ?_⟩
                  intro x hx y hy
                  have hx2 : x ∈ rest := List.mem_of_mem_getLast? hx
                  have := hbound x (by simp [hx2]) (PyV.vdict es, l) (by simp)
                  have hy2 : y.2 = l + 1 := mem_map_levels (List.mem_of_mem_head? hy)
                  omega
                have hlw : ∀ z ∈ (rest ++ es.map
                    (fun p => ((p.2 : PyV), l + 1))).head?, l ≤ z.2 := by
                  intro z hz
                  cases rest with
                  | nil =>
                      have := mem_map_levels (List.mem_of_mem_head?
                        (by simpa using hz))
                      omega
                  | cons r rs =>
                      rcases List.chain'_cons'.mp hchain with ⟨hlink, _⟩
                      have hre : r = z := by simpa using hz
                      rw [← hre]
                      exact hlink r (by simp)
                have hbound2 : ∀ x ∈ rest ++ es.map (fun p => ((p.2 : PyV), l + 1)),
                    ∀ h0 ∈ (rest ++ es.map
                      (fun p => ((p.2 : PyV), l + 1))).head?, x.2 ≤ h0.2 + 1 := by
                  intro x hx h0 hh0
                  have hl0 := hlw h0 hh0
                  rcases List.mem_append.mp hx with hx | hx
                  · have := hbound x (by simp [hx]) (PyV.vdict es, l) (by simp)
                    omega
                  · have := mem_map_levels hx
                    omega
                rw [ih _ hlt _ l (Nat.le_refl _) he hchain2 hbound2]
                -- both sides take the max over the same set of levels
                congr 1
                simp only [List.map_cons, List.foldr_cons, List.map_append,
                  List.map_map, List.foldr_append]
                rw [foldr_max_init (List.map (fun p => maxLevel p.1 p.2) rest)]
                rw [maxLevel_vdict]
                have hMes : (es.map ((fun p => maxLevel p.1 p.2) ∘
                    fun p => ((p.2 : PyV), l + 1))) =
                    es.map (fun p => maxLevel p.2 (l + 1)) := by
                  simp [Function.comp]
                rw [hMes]
                -- `l` is dominated by a surviving element
                have hl : l ≤ max ((es.map (fun p => maxLevel p.2 (l + 1))).foldr max 0)
                    ((rest.map (fun p => maxLevel p.1 p.2)).foldr max 0) := by
                  cases rest with
                  | cons r rs =>
                      rcases List.chain'_cons'.mp hchain with ⟨hlink, _⟩
                      have h1 : l ≤ r.2 := hlink r (by simp)
                      have h2 : r.2 ≤ maxLevel r.1 r.2 := maxLevel_ge r.1 r.2
                      have h3 : maxLevel r.1 r.2
                          ≤ (((r :: rs).map (fun p => maxLevel p.1 p.2)).foldr max 0) :=
                        le_foldr_max (by simp)
                      omega
                  | nil =>
                      cases es with
                      | nil => simp at he
                      | cons e es2 =>
                          have h2 : l + 1 ≤ maxLevel e.2 (l + 1) := maxLevel_ge e.2 (l + 1)
                          have h3 : maxLevel e.2 (l + 1)
                              ≤ (((e :: es2).map
                                (fun p => maxLevel p.2 (l + 1))).foldr max 0) :=
                            le_foldr_max (by simp)
                          omega
                omega
          | vnone =>
              rw [show bfsAux ((PyV.vnone, l) :: rest) last = bfsAux rest l
                from by simp [bfsAux]]
              cases rest with
              | nil =>
                  rw [show bfsAux [] l = l - 1 from by simp [bfsAux]]
                  simp [maxLevel]
              | cons r rs =>
                  rcases List.chain'_cons'.mp hchain with ⟨hlink, hrest⟩
                  have h1 : l ≤ r.2 := hlink r (by simp)
                  have hlt : (((r :: rs).map (fun p => PyV.size p.1)).sum) < n := by
                    simp only [List.map_cons, List.sum_cons] at hsum ⊢
                    simp only [PyV.size] at hsize hsum
                    omega
                  have hbound2 : ∀ x ∈ r :: rs, ∀ h0 ∈ (r :: rs).head?,
                      x.2 ≤ h0.2 + 1 := by
                    intro x hx h0 hh0
                    have := hbound x (by simp [List.mem_cons] at hx ⊢; tauto)
                      (PyV.vnone, l) (by simp)
                    have hre : r = h0 := by simpa using hh0
                    subst hre
                    have := hbound x (by simp [List.mem_cons] at hx ⊢; tauto)
                      (PyV.vnone, l) (by simp)
                    omega
                  rw [ih _ hlt _ l (Nat.le_refl _) (by simp) hrest hbound2]
                  congr 1
                  simp only [List.map_cons, List.foldr_cons, maxLevel]
                  have h2 : r.2 ≤ maxLevel r.1 r.2 := maxLevel_ge r.1 r.2
                  have h3 : maxLevel r.1 r.2
                      ≤ (((r :: rs).map (fun p => maxLevel p.1 p.2)).foldr max 0) :=
                    le_foldr_max (by simp)
                  simp only [List.map_cons, List.foldr_cons] at h3
                  omega
          | vint n2 =>
              rw [show bfsAux ((PyV.vint n2, l) :: rest) last = bfsAux rest l
                from by simp [bfsAux]]
              cases rest with
              | nil =>
                  rw [show bfsAux [] l = l - 1 from by simp [bfsAux]]
                  simp [maxLevel]
              | cons r rs =>
                  rcases List.chain'_cons'.mp hchain with ⟨hlink, hrest⟩
                  have h1 : l ≤ r.2 := hlink r (by simp)
                  have hlt : (((r :: rs).map (fun p => PyV.size p.1)).sum) < n := by
                    simp only [List.map_cons, List.sum_cons] at hsum ⊢
                    simp only [PyV.size] at hsize hsum
                    omega
                  have hbound2 : ∀ x ∈ r :: rs, ∀ h0 ∈ (r :: rs).head?,
                      x.2 ≤ h0.2 + 1 := by
                    intro x hx h0 hh0
                    have hb := hbound x (by simp [List.mem_cons] at hx ⊢; tauto)
                      (PyV.vint n2, l) (by simp)
                    have hre : r = h0 := by simpa using hh0
                    subst hre
                    omega
                  rw [ih _ hlt _ l (Nat.le_refl _) (by simp) hrest hbound2]
                  congr 1
                  simp only [List.map_cons, List.foldr_cons, maxLevel]
                  have h2 : r.2 ≤ maxLevel r.1 r.2 := maxLevel_ge r.1 r.2
                  have h3 : maxLevel r.1 r.2
                      ≤ (((r :: rs).map (fun p => maxLevel p.1 p.2)).foldr max 0) :=
                    le_foldr_max (by simp)
                  simp only [List.map_cons, List.foldr_cons] at h3
                  omega

theorem depth_ok (es : List (Nat × PyV)) :
    depth (PyV.vdict es) = Except.ok (depthRec (PyV.vdict es)) := by
  show Except.ok (bfsAux [(PyV.vdict es, 1)] 0) = _
  rw [bfsAux_eval (PyV.size (PyV.vdict es)) [(PyV.vdict es, 1)] 0
    (by simp) (by simp) (by simp)
    (by
      intro x hx h0 hh0
      have hx2 : x = (PyV.vdict es, 1) := by simpa using hx
      have hh2 : (PyV.vdict es, 1) = h0 := by simpa using hh0
      subst hx2; subst hh2; simp)]
  simp only [List.map_cons, List.map_nil, List.foldr_cons, List.foldr_nil]
  rw [maxLevel_eq]
  congr 1
  omega

theorem depthRec_nonempty :
    ∀ (es : List (Nat × PyV)), es ≠ [] →
      depthRec (PyV.vdict es) = 1 + mdMaxSpec es := by
  intro es
  induction es with
  | nil => intro h; exact absurd rfl h
  | cons q qs ih =>
      intro _
      cases q with
      | mk a b =>
          cases qs with
          | nil =>
              cases b with
              | vnone => simp [depthRec, mdMaxSpec]
              | vint n => simp [depthRec, mdMaxSpec]
              | vdict es2 =>
                  simp only [depthRec, mdMaxSpec, List.filterMap_cons,
                    List.filterMap_nil, List.foldr_cons, List.foldr_nil]
                  omega
          | cons r rs =>
              have ih2 := ih (by simp)
              cases b with
              | vnone =>
                  simp only [depthRec, mdMaxSpec, List.filterMap_cons] at *
                  omega
              | vint n =>
                  simp only [depthRec, mdMaxSpec, List.filterMap_cons] at *
                  omega
              | vdict es2 =>
                  simp only [depthRec, mdMaxSpec, List.filterMap_cons,
                    List.foldr_cons] at *
                  omega

/-- C5: `depth` satisfies the spec's recursive definition on mappings —
`depth({}) = 0`, and for a non-empty mapping the result is one more than
the maximum recursive depth of its mapping values (default 0) — the four
documented examples hold, and a non-mapping argument yields the
`TypeError` branch. -/
theorem depth_matches_recursive_spec :
    (∀ n : Int, depth (PyV.vint n) = Except.error ())
    ∧ depth PyV.vnone = Except.error ()
    ∧ (∀ es : List (Nat × PyV),
        depth (PyV.vdict es) = Except.ok (depthRec (PyV.vdict es)))
    ∧ depthRec (PyV.vdict []) = 0
    ∧ (∀ es : List (Nat × PyV), es ≠ [] →
        depthRec (PyV.vdict es) = 1 + mdMaxSpec es)
    ∧ depth (PyV.vdict []) = Except.ok 0
    ∧ depth (PyV.vdict [(1, PyV.vint 1)]) = Except.ok 1
    ∧ depth (PyV.vdict [(1, PyV.vint 1), (2, PyV.vint 1)]) = Except.ok 1
    ∧ depth (PyV.vdict [(1, PyV.vdict [(1, PyV.vint 1)])]) = Except.ok 2 := by
  refine ⟨fun n => rfl, rfl, depth_ok, by simp [depthRec], depthRec_nonempty,
    ?_, ?_, ?_, ?_⟩
  all_goals rw [depth_ok]; simp [depthRec]

/-- Witness for C5: the recursive-step equation applied to the concrete
one-entry mapping `{1: 1}`. -/
theorem depth_matches_recursive_spec_witness :
    depthRec (PyV.vdict [(1, PyV.vint 1)]) = 1 + mdMaxSpec [(1, PyV.vint 1)] :=
  depth_matches_recursive_spec.2.2.2.2.1 [(1, PyV.vint 1)] (by simp)

end Depth

/-! ## `depth` on object graphs: cycle-safe termination (C6) -/

section DepthGraph

theorem maxFan_ge {g : Graph} {o : GObj} (h : o ∈ g) :
    (o.getD []).length ≤ maxFan g := by
  induction g with
  | nil => simp at h
  | cons o2 rest ih =>
      unfold maxFan at *
      simp only [List.map_cons, List.foldr_cons]
      rcases List.mem_cons.mp h with h | h
      · subst h; omega
      · have := ih h; omega

theorem mem_allIds_children {g : Graph} {root i c : Nat} {ch : List Nat}
    (hg : g[i]?.getD none = some ch) (hc : c ∈ ch) :
    c ∈ allIds g root := by
  have hsome : g[i]? = some (some ch) := by
    cases h : g[i]? with
    | none => rw [h] at hg; simp at hg
    | some o =>
        rw [h] at hg
        simp only [Option.getD_some] at hg
        rw [hg]
  have hmem : (some ch : GObj) ∈ g := List.getElem?_mem hsome
  have : ch ∈ g.map (fun o => o.getD []) := by
    rcases List.mem_map.mp (List.mem_map_of_mem (fun o : GObj => o.getD []) hmem)
      with ⟨o, ho, he⟩
    simpa using List.mem_map_of_mem (fun o : GObj => o.getD []) hmem
  unfold allIds
  exact List.mem_cons_of_mem root (List.mem_flatten.mpr ⟨ch, this, hc⟩)

/-- Fuel sufficiency for the memoised BFS: the measure
`(unvisited ids) * (maxFan + 1) + queue length` strictly decreases. -/
theorem bfsG_sufficient (g : Graph) (root : Nat) :
    ∀ (fuel : Nat) (memo : List Nat) (queue : List (Nat × Nat)) (last : Nat),
      (∀ p ∈ queue, p.1 ∈ allIds g root) →
      ((allIds g root).toFinset.filter (fun i => i ∉ memo)).card
          * (maxFan g + 1) + queue.length < fuel →
      (bfsG g fuel memo queue last).isSome := by
  intro fuel
  induction fuel with
  | zero => intro memo queue last hq hm; omega
  | succ fuel ih =>
      intro memo queue last hq hm
      match queue with
      | [] => simp [bfsG]
      | (i, l) :: rest =>
          by_cases hmem : i ∈ memo
          · rw [show bfsG g (fuel + 1) memo ((i, l) :: rest) last
                = bfsG g fuel memo rest l from by simp [bfsG, hmem]]
            refine ih memo rest l (fun p hp => hq p (by simp [hp])) ?_
            simp only [List.length_cons] at hm
            omega
          · have hiin : i ∈ allIds g root := hq (i, l) (by simp)
            have hcard : ((allIds g root).toFinset.filter
                  (fun x => x ∉ i :: memo)).card + 1
                ≤ ((allIds g root).toFinset.filter (fun x => x ∉ memo)).card := by
              have hsub : (allIds g root).toFinset.filter (fun x => x ∉ i :: memo)
                  ⊂ (allIds g root).toFinset.filter (fun x => x ∉ memo) := by
                constructor
                · intro x hx
                  simp only [Finset.mem_filter, List.mem_cons, not_or] at hx ⊢
                  exact ⟨hx.1, hx.2.2⟩
                · intro hcon
                  have hi1 : i ∈ (allIds g root).toFinset.filter
                      (fun x => x ∉ memo) := by
                    simp only [Finset.mem_filter, List.mem_toFinset]
                    exact ⟨hiin, hmem⟩
                  have hi2 := hcon hi1
                  simp only [Finset.mem_filter, List.mem_cons, not_or] at hi2
                  exact hi2.2.1 trivial
              exact Finset.card_lt_card hsub
            have hmul := Nat.mul_le_mul_right (maxFan g + 1) hcard
            cases hch : g[i]?.getD none with
            | some ch =>
                rw [show bfsG g (fuel + 1) memo ((i, l) :: rest) last
                    = bfsG g fuel (i :: memo)
                        (rest ++ ch.map (fun c => (c, l + 1))) l
                  from by simp [bfsG, hmem, hch]]
                refine ih (i :: memo) _ l ?_ ?_
                · intro p hp
                  rcases List.mem_append.mp hp with hp | hp
                  · exact hq p (by simp [hp])
                  · rcases List.mem_map.mp hp with ⟨c, hc, rfl⟩
                    exact mem_allIds_children hch hc
                · have hfan : ch.length ≤ maxFan g := by
                    have hsome : g[i]? = some (some ch) := by
                      cases h2 : g[i]? with
                      | none => rw [h2] at hch; simp at hch
                      | some o =>
                          rw [h2] at hch
                          simp only [Option.getD_some] at hch
                          rw [hch]
                    have := maxFan_ge (List.getElem?_mem hsome)
                    simpa using this
                  simp only [List.length_append, List.length_map,
                    List.length_cons] at hm ⊢
                  simp only [Nat.add_mul, Nat.one_mul] at hmul
                  omega
            | none =>
                rw [show bfsG g (fuel + 1) memo ((i, l) :: rest) last
                    = bfsG g fuel (i :: memo) rest l
                  from by simp [bfsG, hmem, hch]]
                refine ih (i :: memo) rest l
                  (fun p hp => hq p (by simp [hp])) ?_
                simp only [List.length_cons] at hm
                simp only [Nat.add_mul, Nat.one_mul] at hmul
                omega

/-- C6: the breadth-first `depth` traversal with a visited-identity memo
terminates on every finite object graph, cycles included — the stated fuel
bound always suffices — and on the self-referential dict `d = {1: d}` it
returns depth 1, the depth reached along the only unrevisited chain. -/
theorem depth_cycle_safe_terminates :
    (∀ (g : Graph) (root : Nat), ∃ v,
        bfsG g (fuelBound g root) [] [(root, 1)] 0 = some v)
    ∧ depthG [some [0]] 0 = Except.ok (some 1) := by
  constructor
  · intro g root
    have h := bfsG_sufficient g root (fuelBound g root) [] [(root, 1)] 0
      (by intro p hp; have : p = (root, 1) := by simpa using hp
          rw [this]; exact List.mem_cons_self _ _)
      (by
        unfold fuelBound
        have hle : ((allIds g root).toFinset.filter
              (fun i => i ∉ ([] : List Nat))).card
            ≤ (allIds g root).toFinset.card := Finset.card_filter_le _ _
        have := Nat.mul_le_mul_right (maxFan g + 1) hle
        simp only [List.length_cons, List.length_nil]
        omega)
    rcases Option.isSome_iff_exists.mp h with ⟨v, hv⟩
    exact ⟨v, hv⟩
  · rfl

end DepthGraph

/-! ## `maggregate`: precedence resolution (C1), totality and domain (C3),
safety of the unguarded flat lookup (C10) -/

section Magg

theorem mem_dedupFirst {κ : Type} [DecidableEq κ] (l : List κ) (a : κ) :
    a ∈ dedupFirst l ↔ a ∈ l := by
  induction l using dedupFirst.induct with
  | case1 => simp [dedupFirst]
  | case2 k rest ih =>
      rw [show dedupFirst (k :: rest)
          = k :: dedupFirst (rest.filter (fun x => x ≠ k))
        from by simp [dedupFirst]]
      by_cases hak : a = k
      · simp [hak]
      · simp only [List.mem_cons, hak, false_or, ih, List.mem_filter]
        simp [hak]

theorem mem_unionKeys (D Nt K : DictV) (a : Nat) :
    a ∈ unionKeys D Nt K ↔ a ∈ keys D ∨ a ∈ keys Nt ∨ a ∈ keys K := by
  unfold unionKeys
  rw [mem_dedupFirst]
  simp [or_assoc]

theorem resolveAttr_ok (D Nt K : DictV) (t a : Nat)
    (h : a ∈ keys D ∨ a ∈ keys Nt ∨ a ∈ keys K) :
    resolveAttr D Nt K t a = Except.ok (resolveSpec D Nt K t a) := by
  unfold resolveAttr resolveSpec
  cases hkd : getAsDict K a with
  | some kd =>
      dsimp only
      cases lookup kd t with
      | some v => rfl
      | none =>
          cases lookup Nt a with
          | some v => rfl
          | none => cases lookup D a with
              | some v => rfl
              | none => rfl
  | none =>
      dsimp only
      cases hk : lookup K a with
      | some v => rfl
      | none =>
          cases hn : lookup Nt a with
          | some v => rfl
          | none =>
              cases hd : lookup D a with
              | some v => rfl
              | none =>
                  exfalso
                  rcases h with h | h | h
                  · exact (lookup_eq_none_iff D a).mp hd h
                  · exact (lookup_eq_none_iff Nt a).mp hn h
                  · exact (lookup_eq_none_iff K a).mp hk h

theorem attrsFold (D Nt K : DictV) (t : Nat) :
    ∀ (as2 : List Nat) (acc : DictV),
      (∀ a ∈ as2, a ∈ keys D ∨ a ∈ keys Nt ∨ a ∈ keys K) →
      ∃ r, as2.foldlM
            (fun acc a => (resolveAttr D Nt K t a).map (fun v => setItem acc a v))
            acc
          = Except.ok r
        ∧ ∀ a, lookup r a
            = if a ∈ as2 then some (resolveSpec D Nt K t a) else lookup acc a := by
  intro as2
  induction as2 with
  | nil =>
      intro acc _
      exact ⟨acc, rfl, by simp⟩
  | cons a0 rest ih =>
      intro acc hmem
      have h0 := resolveAttr_ok D Nt K t a0 (hmem a0 (by simp))
      rcases ih (setItem acc a0 (resolveSpec D Nt K t a0))
        (fun a ha => hmem a (by simp [ha])) with ⟨r, hr, hl⟩
      refine ⟨r, ?_, ?_⟩
      · rw [List.foldlM_cons, h0]
        simpa [Except.map] using hr
      · intro a
        rw [hl a]
        by_cases har : a ∈ rest
        · simp [har]
        · by_cases ha0 : a = a0
          · subst ha0
            rw [lookup_setItem_self]
            simp [har]
          · rw [lookup_setItem_ne _ _ ha0]
            simp [har, ha0]

theorem attrsFor_ok (D Nt K : DictV) (t : Nat) :
    ∃ r, attrsFor D Nt K t = Except.ok r
      ∧ (∀ a, lookup r a
          = if a ∈ unionKeys D Nt K
            then some (resolveSpec D Nt K t a) else none)
      ∧ (r.isEmpty = true ↔ unionKeys D Nt K = []) := by
  rcases attrsFold D Nt K t (unionKeys D Nt K) []
      (fun a ha => (mem_unionKeys D Nt K a).mp ha) with ⟨r, hr, hl⟩
  refine ⟨r, hr, ?_, ?_⟩
  · intro a
    rw [hl a]
    by_cases h : a ∈ unionKeys D Nt K <;> simp [h, lookup]
  · constructor
    · intro he
      cases hu : unionKeys D Nt K with
      | nil => rfl
      | cons a0 rest =>
          exfalso
          have := hl a0
          rw [hu] at this
          simp only [List.mem_cons, true_or, if_pos] at this
          rw [List.isEmpty_iff] at he
          subst he
          simp [lookup] at this
    · intro hu
      rcases attrsFold D Nt K t (unionKeys D Nt K) []
        (fun a ha => (mem_unionKeys D Nt K a).mp ha) with ⟨r2, hr2, _⟩
      rw [hu] at hr
      simp only [List.foldlM_nil] at hr
      cases hr
      rfl

theorem attrsVal_eq {D : DictV} {N : DictN} {K : DictV} {t : Nat} {r : DictV}
    (h : attrsFor D (getD N t []) K t = Except.ok r) :
    attrsVal D N K t = r := by
  unfold attrsVal
  rw [h]

theorem maggregateCore_fold (D : DictV) (N : DictN) (K : DictV) :
    ∀ (ts : List Nat) (acc : DictN),
      ∃ out, ts.foldlM
            (fun out t =>
              (attrsFor D (getD N t []) K t).map
                (fun attrs => if attrs.isEmpty then out else setItem out t attrs))
            acc
          = Except.ok out
        ∧ ∀ t, lookup out t
            = if t ∈ ts ∧ unionKeys D (getD N t []) K ≠ []
              then some (attrsVal D N K t) else lookup acc t := by
  intro ts
  induction ts with
  | nil =>
      intro acc
      exact ⟨acc, rfl, by simp⟩
  | cons t0 rest ih =>
      intro acc
      rcases attrsFor_ok D (getD N t0 []) K t0 with ⟨r0, hr0, _, hemp⟩
      have hav := attrsVal_eq hr0
      by_cases hU : unionKeys D (getD N t0 []) K = []
      · have hre : r0.isEmpty = true := hemp.mpr hU
        rcases ih acc with ⟨out, hout, hl⟩
        refine ⟨out, ?_, ?_⟩
        · rw [List.foldlM_cons, hr0]
          simpa [Except.map, hre] using hout
        · intro t
          rw [hl t]
          by_cases ht : t = t0
          · subst ht
            simp [hU]
          · by_cases h2 : t ∈ rest ∧ unionKeys D (getD N t []) K ≠ []
            · simp [h2, ht]
            · simp only [if_neg h2]
              rw [if_neg]
              intro hcon
              rcases hcon with ⟨hc1, hc2⟩
              rcases List.mem_cons.mp hc1 with h3 | h3
              · exact ht h3
              · exact h2 ⟨h3, hc2⟩
      · have hre : r0.isEmpty = false := by
          cases h2 : r0.isEmpty
          · rfl
          · exact absurd (hemp.mp h2) hU
        rcases ih (setItem acc t0 r0) with ⟨out, hout, hl⟩
        refine ⟨out, ?_, ?_⟩
        · rw [List.foldlM_cons, hr0]
          simpa [Except.map, hre] using hout
        · intro t
          rw [hl t]
          by_cases h2 : t ∈ rest ∧ unionKeys D (getD N t []) K ≠ []
          · simp [h2]
          · simp only [if_neg h2]
            by_cases ht : t = t0
            · subst ht
              rw [lookup_setItem_self, hav]
              rw [if_pos ⟨by simp, hU⟩]
            · rw [lookup_setItem_ne _ _ ht]
              rw [if_neg]
              intro hcon
              rcases List.mem_cons.mp hcon.1 with h3 | h3
              · exact ht h3
              · exact h2 ⟨h3, hcon.2⟩

/-- C1: for pre-merged flat defaults `D`, nested overrides `N` and keyword
overrides `K`, `maggregate`'s loop resolves, for every requested top-level
key `t` and every attribute `a` in the union of the keys of `D`, `N[t]`
and `K`, exactly the claimed precedence chain `K[a][t]`, scalar `K[a]`,
`N[t][a]`, `D[a]`, `None`; attributes outside the union are absent. -/
theorem maggregate_resolution (D : DictV) (N : DictN) (K : DictV)
    (T : List Nat) :
    ∃ out, maggregateCore D N K T = Except.ok out ∧
      ∀ t ∈ T, ∀ a : Nat,
        lookup2 out t a
          = if a ∈ unionKeys D (getD N t []) K
            then some (resolveSpec D (getD N t []) K t a) else none := by
  rcases maggregateCore_fold D N K T [] with ⟨out, hout, hl⟩
  refine ⟨out, hout, ?_⟩
  intro t ht a
  unfold lookup2
  rw [hl t]
  by_cases hU : unionKeys D (getD N t []) K = []
  · simp only [ht, true_and, hU]
    simp [lookup, hU]
  · rw [if_pos ⟨ht, hU⟩]
    rcases attrsFor_ok D (getD N t []) K t with ⟨r0, hr0, hla, _⟩
    rw [attrsVal_eq hr0]
    exact hla a

/-- Witness for C1 at a concrete input: one flat default, no nested dicts,
no kwargs, one top-level key. -/
theorem maggregate_resolution_witness :
    ∃ out, maggregateCore [(5, PyV.vint 7)] [] [] [3] = Except.ok out ∧
      lookup2 out 3 5 = some (PyV.vint 7) := by
  rcases maggregate_resolution [(5, PyV.vint 7)] [] [] [3] with ⟨out, h1, h2⟩
  refine ⟨out, h1, ?_⟩
  rw [h2 3 (by simp) 5]
  rw [if_pos (by simp [unionKeys, dedupFirst, keys, getD, lookup])]
  simp [resolveSpec, getAsDict, lookup, getD]

/-- C10: the final `aggregates[kwarg]` lookup in `maggregate`'s scalar
branch can never raise `KeyError`: an iterated attribute that is neither a
key of the kwargs nor of the nested aggregates for the current top-level
key must be a key of the flat aggregates, and resolution succeeds. -/
theorem maggregate_flat_lookup_safe (D Nt K : DictV) (t a : Nat)
    (hu : a ∈ unionKeys D Nt K)
    (hk : lookup K a = none) (hn : lookup Nt a = none) :
    (∃ v, lookup D a = some v)
    ∧ ∃ v, resolveAttr D Nt K t a = Except.ok v := by
  have hmem := (mem_unionKeys D Nt K a).mp hu
  have hd : a ∈ keys D := by
    rcases hmem with h | h | h
    · exact h
    · exact absurd h ((lookup_eq_none_iff Nt a).mp hn)
    · exact absurd h ((lookup_eq_none_iff K a).mp hk)
  constructor
  · have := (mem_keys_iff_lookup D a).mp hd
    rcases Option.isSome_iff_exists.mp this with ⟨v, hv⟩
    exact ⟨v, hv⟩
  · exact ⟨_, resolveAttr_ok D Nt K t a hmem⟩

/-- Witness for C10 at a concrete input. -/
theorem maggregate_flat_lookup_safe_witness :
    (∃ v, lookup [(2, PyV.vint 9)] 2 = some v)
    ∧ ∃ v, resolveAttr [(2, PyV.vint 9)] [] [] 0 2 = Except.ok v :=
  maggregate_flat_lookup_safe [(2, PyV.vint 9)] [] [] 0 2
    (by simp [unionKeys, dedupFirst, keys]) rfl rfl

/-- C3 (amended): `maggregate` never raises — unresolved attributes become
`None` — and the returned mapping has an entry exactly for those requested
top-level keys whose candidate attribute union is non-empty; a top-level
key mentioned by no source at all is absent rather than mapped to an
empty attribute set. -/
theorem maggregate_total_domain (dcts : List DictV) (nstd : List DictN)
    (K : DictV) (T : List Nat) :
    ∃ out, maggregate dcts nstd K T = Except.ok out ∧
      ∀ t, (hasKey out t
          ↔ t ∈ T
            ∧ unionKeys (flaggregate dcts []) (getD (naggregate nstd) t []) K
                ≠ []) := by
  rcases maggregateCore_fold (flaggregate dcts []) (naggregate nstd) K T []
    with ⟨out, hout, hl⟩
  refine ⟨out, hout, ?_⟩
  intro t
  unfold hasKey
  rw [hl t]
  by_cases h : t ∈ T ∧ unionKeys (flaggregate dcts [])
      (getD (naggregate nstd) t []) K ≠ []
  · simp [h]
  · simp [h, lookup]

/-- Counterexample to C3 as stated: with all sources empty, the requested
top-level key `0` gets no entry — the call returns the empty mapping, not
`{0: {}}`. -/
theorem maggregate_missing_tlky_counterexample :
    maggregate [] [] [] [0] = Except.ok []
    ∧ (maggregate [] [] [] [0]).map (fun out => hasKey out 0)
        = Except.ok false := by
  have h : maggregate [] [] [] [0] = Except.ok [] := by
    simp [maggregate, maggregateCore, attrsFor, unionKeys, dedupFirst, keys,
      flaggregate, naggregate, getD, lookup, Except.map, pure, Except.pure,
      Bind.bind, Except.bind]
  exact ⟨h, by rw [h]; rfl⟩

end Magg

/-! ## `kswap`: transposition and round-trip (C9) -/

section Swap

theorem lookup2_insert (acc : Dict Nat (Dict Nat PyV)) (i o : Nat) (v : PyV)
    (i2 o2 : Nat) :
    lookup2 (setItem acc i (setItem (getD acc i []) o v)) i2 o2
      = if i2 = i ∧ o2 = o then some v else lookup2 acc i2 o2 := by
  unfold lookup2
  by_cases hi : i2 = i
  · subst hi
    rw [lookup_setItem_self]
    dsimp only
    by_cases ho : o2 = o
    · subst ho
      rw [lookup_setItem_self]
      simp
    · rw [lookup_setItem_ne _ _ ho]
      simp only [ho, and_false, if_false]
      unfold getD
      cases lookup acc i2 with
      | some d => simp
      | none => simp [lookup]
  · rw [lookup_setItem_ne _ _ hi]
    simp [hi]

theorem lookup2_innerFold (sub : Dict Nat PyV) (tl : Nat) :
    ∀ (acc : Dict Nat (Dict Nat PyV)) (i2 o2 : Nat),
      lookup2 (sub.foldl
          (fun acc2 q => setItem acc2 q.1 (setItem (getD acc2 q.1 []) tl q.2))
          acc) i2 o2
        = if o2 = tl
          then (lookup sub.reverse i2).orElse (fun _ => lookup2 acc i2 o2)
          else lookup2 acc i2 o2 := by
  induction sub using List.reverseRecOn with
  | nil =>
      intro acc i2 o2
      by_cases h : o2 = tl <;> simp [h, lookup]
  | append_singleton sub q ih =>
      intro acc i2 o2
      rw [List.foldl_append, List.foldl_cons, List.foldl_nil, lookup2_insert,
        ih acc i2 o2]
      rw [List.reverse_append]
      simp only [List.reverse_cons, List.reverse_nil, List.nil_append,
        List.cons_append, List.nil_append]
      by_cases ho : o2 = tl
      · subst ho
        by_cases hi : i2 = q.1
        · subst hi
          simp [lookup]
        · simp only [hi, false_and, if_false]
          rw [show lookup (q :: sub.reverse) i2
              = if q.1 = i2 then some q.2 else lookup sub.reverse i2 from rfl]
          simp [Ne.symm hi]
      · simp [ho]

theorem nodup_keys_innerFold (sub : Dict Nat PyV) (tl : Nat) :
    ∀ (acc : Dict Nat (Dict Nat PyV)), (keys acc).Nodup →
      (keys (sub.foldl
          (fun acc2 q => setItem acc2 q.1 (setItem (getD acc2 q.1 []) tl q.2))
          acc)).Nodup := by
  induction sub with
  | nil => intro acc h; exact h
  | cons q rest ih =>
      intro acc h
      rw [List.foldl_cons]
      exact ih _ (nodup_keys_setItem _ _ _ h)

theorem nodup_keys_kswapCore (x : Dict Nat PyV) :
    (keys (kswapCore x)).Nodup := by
  unfold kswapCore
  suffices h : ∀ acc : Dict Nat (Dict Nat PyV), (keys acc).Nodup →
      (keys (x.foldl
        (fun acc p =>
          match p.2 with
          | PyV.vdict sub =>
              sub.foldl
                (fun acc2 q =>
                  setItem acc2 q.1 (setItem (getD acc2 q.1 []) p.1 q.2))
                acc
          | _ => acc)
        acc)).Nodup by
    exact h [] (by simp [keys])
  induction x with
  | nil => intro acc h; exact h
  | cons p rest ih =>
      intro acc h
      rw [List.foldl_cons]
      cases hp : p.2 with
      | vdict sub => exact ih _ (nodup_keys_innerFold sub p.1 acc h)
      | vnone => exact ih _ h
      | vint n => exact ih _ h

theorem lookup_of_mem_nodup {κ ν : Type} [DecidableEq κ] {d : Dict κ ν}
    {k : κ} {v : ν} (hnd : (keys d).Nodup) (h : (k, v) ∈ d) :
    lookup d k = some v := by
  induction d with
  | nil => simp at h
  | cons p rest ih =>
      simp only [keys, List.map_cons, List.nodup_cons] at hnd
      rcases List.mem_cons.mp h with h | h
      · rw [← h]
        simp [lookup]
      · have hk : p.1 ≠ k := by
          intro he
          exact hnd.1 (he ▸ (List.mem_map_of_mem Prod.fst h))
        rw [show lookup (p :: rest) k
            = if p.1 = k then some p.2 else lookup rest k from rfl]
        simp [hk, ih hnd.2 h]

theorem innerNodup_innerFold (sub : Dict Nat PyV) (tl : Nat) :
    ∀ (acc : Dict Nat (Dict Nat PyV)),
      (∀ i dv, lookup acc i = some dv → (keys dv).Nodup) →
      ∀ i dv, lookup (sub.foldl
          (fun acc2 q => setItem acc2 q.1 (setItem (getD acc2 q.1 []) tl q.2))
          acc) i = some dv → (keys dv).Nodup := by
  induction sub with
  | nil => intro acc h; exact h
  | cons q rest ih =>
      intro acc h
      rw [List.foldl_cons]
      refine ih _ ?_
      intro i dv hl
      by_cases hi : i = q.1
      · rw [hi, lookup_setItem_self] at hl
        cases hl
        refine nodup_keys_setItem _ _ _ ?_
        unfold getD
        cases h2 : lookup acc q.1 with
        | some d0 => exact h q.1 d0 h2
        | none => simp [keys]
      · rw [lookup_setItem_ne _ _ hi] at hl
        exact h i dv hl

theorem innerNodup_kswapCore (x : Dict Nat PyV) :
    ∀ i dv, lookup (kswapCore x) i = some dv → (keys dv).Nodup := by
  unfold kswapCore
  suffices h : ∀ acc : Dict Nat (Dict Nat PyV),
      (∀ i dv, lookup acc i = some dv → (keys dv).Nodup) →
      ∀ i dv, lookup (x.foldl
        (fun acc p =>
          match p.2 with
          | PyV.vdict sub =>
              sub.foldl
                (fun acc2 q =>
                  setItem acc2 q.1 (setItem (getD acc2 q.1 []) p.1 q.2))
                acc
          | _ => acc)
        acc) i = some dv → (keys dv).Nodup by
    exact h [] (by intro i dv h2; simp [lookup] at h2)
  induction x with
  | nil => intro acc h; exact h
  | cons p rest ih =>
      intro acc h
      rw [List.foldl_cons]
      cases hp : p.2 with
      | vdict sub => exact ih _ (innerNodup_innerFold sub p.1 acc h)
      | vnone => exact ih _ h
      | vint n => exact ih _ h

/-- `kswap` transposes: entry `(i, o)` of the built `defaultdict` is entry
`(o, i)` of the input. -/
theorem lookup2_kswapCore :
    ∀ (x : Dict Nat PyV), (keys x).Nodup →
      (∀ p ∈ x, ∀ sub, p.2 = PyV.vdict sub → (keys sub).Nodup) →
      ∀ i o, lookup2 (kswapCore x) i o = lookup2v x o i := by
  unfold kswapCore
  intro x
  induction x using List.reverseRecOn with
  | nil => intro _ _ i o; simp [lookup2, lookup2v, lookup]
  | append_singleton x e ih =>
      intro hnd hsub i o
      have hnd2 : (keys x).Nodup := by
        unfold keys at hnd
        rw [List.map_append] at hnd
        exact (List.nodup_append.mp hnd).1
      have hnotin : e.1 ∉ keys x := by
        unfold keys at hnd ⊢
        rw [List.map_append] at hnd
        have h3 := (List.nodup_append.mp hnd).2.2
        intro hcon
        exact h3 hcon (by simp)
      have ih2 := ih hnd2 (fun p hp sub hs => hsub p (by simp [hp]) sub hs)
      rw [List.foldl_append, List.foldl_cons, List.foldl_nil]
      have hrhs : lookup2v (x ++ [e]) o i
          = if o = e.1
            then (match e.2 with
                  | PyV.vdict sub => lookup sub i
                  | _ => none)
            else lookup2v x o i := by
        unfold lookup2v
        rw [lookup_append]
        by_cases ho : o = e.1
        · have hx : lookup x o = none := by
            rw [lookup_eq_none_iff, ho]
            exact hnotin
          rw [hx, ho]
          simp only [lookup, if_pos rfl]
          cases e.2 <;> rfl
        · rw [show lookup [e] o = none from by
              rw [lookup_eq_none_iff]
              simp [keys, ho]]
          simp only [ho, if_false]
          cases lookup x o <;> simp
      cases he : e.2 with
      | vdict sub =>
          dsimp only
          rw [lookup2_innerFold sub e.1]
          rw [he] at hrhs
          dsimp only at hrhs
          rw [hrhs]
          by_cases ho : o = e.1
          · rw [if_pos ho, if_pos ho]
            rw [ih2 i o]
            have hx : lookup2v x o i = none := by
              unfold lookup2v
              rw [ho, (lookup_eq_none_iff x e.1).mpr hnotin]
            rw [hx]
            have hsubnd : (keys sub).Nodup := hsub e (by simp) sub he
            rw [lookup_reverse_of_nodup sub i hsubnd]
            cases lookup sub i <;> simp
          · rw [if_neg ho, if_neg ho, ih2 i o]
      | vnone =>
          dsimp only
          rw [ih2 i o]
          rw [he] at hrhs
          dsimp only at hrhs
          rw [hrhs]
          by_cases ho : o = e.1
          · rw [if_pos ho]
            unfold lookup2v
            rw [ho, (lookup_eq_none_iff x e.1).mpr hnotin]
          · rw [if_neg ho]
      | vint n =>
          dsimp only
          rw [ih2 i o]
          rw [he] at hrhs
          dsimp only at hrhs
          rw [hrhs]
          by_cases ho : o = e.1
          · rw [if_pos ho]
            unfold lookup2v
            rw [ho, (lookup_eq_none_iff x e.1).mpr hnotin]
          · rw [if_neg ho]

theorem lookup_mem {κ ν : Type} [DecidableEq κ] {d : Dict κ ν} {k : κ}
    {v : ν} (h : lookup d k = some v) : (k, v) ∈ d := by
  induction d with
  | nil => simp [lookup] at h
  | cons p rest ih =>
      rw [show lookup (p :: rest) k
          = if p.1 = k then some p.2 else lookup rest k from rfl] at h
      by_cases hp : p.1 = k
      · rw [if_pos hp] at h
        cases h
        cases p with
        | mk a b =>
            simp only at hp
            rw [← hp]
            exact List.mem_cons_self _ _
      · rw [if_neg hp] at h
        exact List.mem_cons_of_mem _ (ih h)

theorem lookup2v_append (x : Dict Nat PyV) (e : Nat × PyV)
    (hnotin : e.1 ∉ keys x) (o i : Nat) :
    lookup2v (x ++ [e]) o i
      = if o = e.1
        then (match e.2 with | PyV.vdict sub => lookup sub i | _ => none)
        else lookup2v x o i := by
  unfold lookup2v
  rw [lookup_append]
  by_cases ho : o = e.1
  · have hx : lookup x o = none := by
      rw [lookup_eq_none_iff, ho]
      exact hnotin
    rw [hx, ho]
    simp only [lookup, if_pos rfl]
    cases e.2 <;> rfl
  · rw [show lookup [e] o = none from by
        rw [lookup_eq_none_iff]
        simp [keys, ho]]
    simp only [ho, if_false]
    cases lookup x o <;> simp

theorem lookup2v_kswap (y : Dict Nat PyV) (i o : Nat) :
    lookup2v (kswap y) i o = lookup2 (kswapCore y) i o := by
  unfold kswap lookup2v lookup2
  rw [lookup_map_values]
  cases lookup (kswapCore y) i <;> rfl

theorem isSome_innerFold (sub : Dict Nat PyV) (tl : Nat) :
    ∀ (acc : Dict Nat (Dict Nat PyV)) (i : Nat),
      (lookup (sub.foldl
          (fun acc2 q => setItem acc2 q.1 (setItem (getD acc2 q.1 []) tl q.2))
          acc) i).isSome = true
        ↔ i ∈ keys sub ∨ (lookup acc i).isSome = true := by
  induction sub with
  | nil => intro acc i; simp [keys]
  | cons q rest ih =>
      intro acc i
      rw [List.foldl_cons, ih]
      by_cases hi : i = q.1
      · rw [hi]
        simp only [lookup_setItem_self, Option.isSome_some, or_true]
        simp [keys]
      · rw [lookup_setItem_ne _ _ hi]
        simp [keys, hi]

theorem isSome_lookup_kswapCore :
    ∀ (x : Dict Nat PyV), (keys x).Nodup →
      ∀ i, ((lookup (kswapCore x) i).isSome = true
        ↔ ∃ o, (lookup2v x o i).isSome = true) := by
  unfold kswapCore
  intro x
  induction x using List.reverseRecOn with
  | nil =>
      intro _ i
      simp [lookup, lookup2v]
  | append_singleton x e ih =>
      intro hnd i
      have hnd2 : (keys x).Nodup := by
        unfold keys at hnd
        rw [List.map_append] at hnd
        exact (List.nodup_append.mp hnd).1
      have hnotin : e.1 ∉ keys x := by
        unfold keys at hnd ⊢
        rw [List.map_append] at hnd
        have h3 := (List.nodup_append.mp hnd).2.2
        intro hcon
        exact h3 hcon (by simp)
      have ih2 := ih hnd2 i
      rw [List.foldl_append, List.foldl_cons, List.foldl_nil]
      have hresc : ∀ o, lookup2v (x ++ [e]) o i
          = if o = e.1
            then (match e.2 with | PyV.vdict sub => lookup sub i | _ => none)
            else lookup2v x o i := fun o => lookup2v_append x e hnotin o i
      cases he : e.2 with
      | vdict sub =>
          dsimp only
          rw [isSome_innerFold sub e.1, ih2]
          constructor
          · rintro (hk | ⟨o, ho⟩)
            · refine ⟨e.1, ?_⟩
              rw [hresc e.1, if_pos rfl, he]
              exact (mem_keys_iff_lookup sub i).mp hk
            · refine ⟨o, ?_⟩
              have hone : o ≠ e.1 := by
                intro hcon
                rw [hcon] at ho
                unfold lookup2v at ho
                rw [(lookup_eq_none_iff x e.1).mpr hnotin] at ho
                simp at ho
              rw [hresc o, if_neg hone]
              exact ho
          · rintro ⟨o, ho⟩
            rw [hresc o] at ho
            by_cases hoe : o = e.1
            · rw [if_pos hoe, he] at ho
              exact Or.inl ((mem_keys_iff_lookup sub i).mpr ho)
            · rw [if_neg hoe] at ho
              exact Or.inr ⟨o, ho⟩
      | vnone =>
          dsimp only
          rw [ih2]
          constructor
          · rintro ⟨o, ho⟩
            refine ⟨o, ?_⟩
            have hone : o ≠ e.1 := by
              intro hcon
              rw [hcon] at ho
              unfold lookup2v at ho
              rw [(lookup_eq_none_iff x e.1).mpr hnotin] at ho
              simp at ho
            rw [hresc o, if_neg hone]
            exact ho
          · rintro ⟨o, ho⟩
            rw [hresc o] at ho
            by_cases hoe : o = e.1
            · rw [if_pos hoe, he] at ho
              simp at ho
            · rw [if_neg hoe] at ho
              exact ⟨o, ho⟩
      | vint n =>
          dsimp only
          rw [ih2]
          constructor
          · rintro ⟨o, ho⟩
            refine ⟨o, ?_⟩
            have hone : o ≠ e.1 := by
              intro hcon
              rw [hcon] at ho
              unfold lookup2v at ho
              rw [(lookup_eq_none_iff x e.1).mpr hnotin] at ho
              simp at ho
            rw [hresc o, if_neg hone]
            exact ho
          · rintro ⟨o, ho⟩
            rw [hresc o] at ho
            by_cases hoe : o = e.1
            · rw [if_pos hoe, he] at ho
              simp at ho
            · rw [if_neg hoe] at ho
              exact ⟨o, ho⟩

theorem keys_kswap (y : Dict Nat PyV) : keys (kswap y) = keys (kswapCore y) := by
  unfold kswap keys
  rw [List.map_map]
  rfl

theorem hsub_kswap (y : Dict Nat PyV) :
    ∀ p ∈ kswap y, ∀ sub, p.2 = PyV.vdict sub → (keys sub).Nodup := by
  intro p hp sub hs
  unfold kswap at hp
  rcases List.mem_map.mp hp with ⟨q, hq, rfl⟩
  have : PyV.vdict q.2 = PyV.vdict sub := hs
  cases this
  exact innerNodup_kswapCore y q.1 q.2
    (lookup_of_mem_nodup (nodup_keys_kswapCore y) hq)

/-- C9 (amended): for a depth-1 mapping whose outer values are all
non-empty mappings, `kswap` is involutive up to mapping equality — the
double swap restores every entry and the exact top-level key set.  (Outer
entries with an empty inner mapping are dropped by a single swap, so they
are excluded; overlapping inner keys never conflict because the swapped
values are nested per top-level key.) -/
theorem kswap_roundtrip (x : Dict Nat PyV)
    (hnd : (keys x).Nodup)
    (hvals : ∀ p ∈ x, ∃ sub, p.2 = PyV.vdict sub ∧ sub ≠ [] ∧ (keys sub).Nodup) :
    (∀ o i, lookup2v (kswap (kswap x)) o i = lookup2v x o i)
    ∧ ∀ o, ((lookup (kswap (kswap x)) o).isSome = true
        ↔ (lookup x o).isSome = true) := by
  have hsub : ∀ p ∈ x, ∀ sub, p.2 = PyV.vdict sub → (keys sub).Nodup := by
    intro p hp sub hs
    rcases hvals p hp with ⟨sub2, hs2, _, hnd2⟩
    rw [hs] at hs2
    cases hs2
    exact hnd2
  have hndk : (keys (kswap x)).Nodup := by
    rw [keys_kswap]
    exact nodup_keys_kswapCore x
  constructor
  · intro o i
    rw [lookup2v_kswap (kswap x) o i,
      lookup2_kswapCore (kswap x) hndk (hsub_kswap x) o i,
      lookup2v_kswap x i o, lookup2_kswapCore x hnd hsub i o]
  · intro o
    have h1 : (lookup (kswap (kswap x)) o).isSome
        = (lookup (kswapCore (kswap x)) o).isSome := by
      rw [show kswap (kswap x)
          = (kswapCore (kswap x)).map (fun p => (p.1, PyV.vdict p.2)) from rfl]
      rw [lookup_map_values]
      cases lookup (kswapCore (kswap x)) o <;> rfl
    rw [h1, isSome_lookup_kswapCore (kswap x) hndk o]
    have h2 : ∀ i, lookup2v (kswap x) i o = lookup2v x o i := by
      intro i
      rw [lookup2v_kswap x i o, lookup2_kswapCore x hnd hsub i o]
    constructor
    · rintro ⟨i, hi⟩
      rw [h2 i] at hi
      unfold lookup2v at hi
      cases hv : lookup x o with
      | none => rw [hv] at hi; simp at hi
      | some val => simp
    · intro hi
      rcases Option.isSome_iff_exists.mp hi with ⟨val, hval⟩
      rcases hvals (o, val) (lookup_mem hval) with ⟨sub, hs, hne, _⟩
      cases sub with
      | nil => exact absurd rfl hne
      | cons q qs =>
          refine ⟨q.1, ?_⟩
          rw [h2 q.1]
          unfold lookup2v
          rw [hval]
          simp only at hs
          rw [hs]
          dsimp only
          rw [show lookup (q :: qs) q.1
              = if q.1 = q.1 then some q.2 else lookup qs q.1 from rfl]
          simp

/-- Counterexample to C9 as stated: the depth-1 mapping `{0: {}}` has
every outer value a mapping and no conflicting inner keys, yet the double
swap returns `{}`, losing the outer key. -/
theorem kswap_empty_inner_counterexample :
    kswap (kswap [(0, PyV.vdict [])]) = ([] : Dict Nat PyV)
    ∧ lookup (kswap (kswap [(0, PyV.vdict [])])) 0 = none
    ∧ lookup [(0, PyV.vdict [])] 0 = some (PyV.vdict []) :=
  ⟨rfl, rfl, rfl⟩

/-- Witness for C9 at the concrete mapping `{0: {1: 5}}`. -/
theorem kswap_roundtrip_witness :
    lookup2v (kswap (kswap [(0, PyV.vdict [(1, PyV.vint 5)])])) 0 1
        = lookup2v [(0, PyV.vdict [(1, PyV.vint 5)])] 0 1
    ∧ ((lookup (kswap (kswap [(0, PyV.vdict [(1, PyV.vint 5)])])) 0).isSome = true
        ↔ (lookup [(0, PyV.vdict [(1, PyV.vint 5)])] 0).isSome = true) := by
  have h := kswap_roundtrip [(0, PyV.vdict [(1, PyV.vint 5)])]
    (by simp [keys])
    (by
      intro p hp
      have hp2 : p = (0, PyV.vdict [(1, PyV.vint 5)]) := by simpa using hp
      subst hp2
      exact ⟨[(1, PyV.vint 5)], rfl, by simp, by simp [keys]⟩)
  exact ⟨h.1 0 1, h.2 0⟩

end Swap

/-! ## `kfrep`: rename characterisation and collision behaviour (C8) -/

section Frep

theorem kfrepSpecP_nil (fnd rplc : Key) (xcptns : List Key) (d0 : DictS)
    (k : Key) : kfrepSpecP fnd rplc xcptns d0 [] k = lookup d0 k := by
  unfold kfrepSpecP
  cases lookup d0 k <;> simp

/-- Invariant of the rename loop over a processed snapshot prefix. -/
theorem kfrep_prefix (fnd rplc : Key) (xcptns : List Key) (d0 : DictS)
    (hnd : (keys d0).Nodup)
    (H2 : ∀ k ∈ keys d0, kfrepMatch fnd xcptns k = true →
        pyReplace k fnd rplc ∉ keys d0) :
    ∀ P Q, keys d0 = P ++ Q →
      ∃ d, P.foldl (kfrepStep fnd rplc xcptns) (some d0) = some d
        ∧ (keys d).Nodup
        ∧ ∀ k, lookup d k = kfrepSpecP fnd rplc xcptns d0 P k := by
  intro P
  induction P using List.reverseRecOn with
  | nil =>
      intro Q hsplit
      refine ⟨d0, rfl, hnd, ?_⟩
      intro k
      rw [kfrepSpecP_nil]
  | append_singleton P k0 ih =>
      intro Q hsplit
      have hsplit2 : keys d0 = P ++ ([k0] ++ Q) := by
        rw [hsplit, List.append_assoc]
      rcases ih ([k0] ++ Q) hsplit2 with ⟨d, hd, hdnd, hspec⟩
      have hk0mem : k0 ∈ keys d0 := by
        rw [hsplit]
        exact List.mem_append_left _ (List.mem_append_right _ (by simp))
      have hk0P : k0 ∉ P := by
        have h2 := hnd
        rw [hsplit] at h2
        have h3 := (List.nodup_append.mp h2).1
        have h4 := (List.nodup_append.mp h3).2.2
        intro hcon
        exact h4 hcon (by simp)
      have hPsub : ∀ k2 ∈ P, k2 ∈ keys d0 := by
        intro k2 hk2
        rw [hsplit]
        exact List.mem_append_left _ (List.mem_append_left _ hk2)
      rw [List.foldl_append, List.foldl_cons, List.foldl_nil, hd]
      cases hm : kfrepMatch fnd xcptns k0 with
      | false =>
          refine ⟨d, by simp [kfrepStep, hm], hdnd, ?_⟩
          intro k
          rw [hspec k]
          unfold kfrepSpecP
          rw [List.reverse_append]
          simp only [List.reverse_cons, List.reverse_nil, List.nil_append,
            List.cons_append]
          rw [List.find?_cons_of_neg _ (by simp [hm])]
          cases lookup d0 k with
          | none => rfl
          | some v =>
              dsimp only
              by_cases hc : kfrepMatch fnd xcptns k = true ∧ k ∈ P
              · rw [if_pos hc, if_pos ⟨hc.1, by simp [hc.2]⟩]
              · rw [if_neg hc, if_neg ?_]
                intro hcon
                rcases hcon with ⟨hc1, hc2⟩
                rcases List.mem_append.mp hc2 with h3 | h3
                · exact hc ⟨hc1, h3⟩
                · have : k = k0 := by simpa using h3
                  rw [this] at hc1
                  rw [hc1] at hm
                  cases hm
      | true =>
          -- the processed key is still present, carrying its original value
          have hnowrite : (P.reverse.find? (fun k2 =>
              kfrepMatch fnd xcptns k2
                && decide (pyReplace k2 fnd rplc = k0))) = none := by
            rw [List.find?_eq_none]
            intro k2 hk2
            have hk2P : k2 ∈ P := List.mem_reverse.mp hk2
            simp only [Bool.and_eq_true, decide_eq_true_eq, not_and]
            intro hm2 hcon
            exact H2 k2 (hPsub k2 hk2P) hm2 (hcon ▸ hk0mem)
          have hv0 : ∃ v0, lookup d0 k0 = some v0 :=
            Option.isSome_iff_exists.mp ((mem_keys_iff_lookup d0 k0).mp hk0mem)
          rcases hv0 with ⟨v0, hv0⟩
          have hdk0 : lookup d k0 = some v0 := by
            rw [hspec k0]
            unfold kfrepSpecP
            rw [hnowrite, hv0]
            dsimp only
            rw [if_neg]
            intro hcon
            exact hk0P hcon.2
          have hnew_notin : pyReplace k0 fnd rplc ∉ keys d0 :=
            H2 k0 hk0mem hm
          have hnew_ne_k0 : pyReplace k0 fnd rplc ≠ k0 := by
            intro hcon
            exact hnew_notin (by rw [hcon]; exact hk0mem)
          refine ⟨setItem (popItem d k0) (pyReplace k0 fnd rplc) v0,
            by simp [kfrepStep, hm, hdk0], ?_, ?_⟩
          · exact nodup_keys_setItem _ _ _ (nodup_keys_popItem _ _ hdnd)
          · intro k
            unfold kfrepSpecP
            rw [List.reverse_append]
            simp only [List.reverse_cons, List.reverse_nil, List.nil_append,
              List.cons_append]
            by_cases hknew : k = pyReplace k0 fnd rplc
            · subst hknew
              rw [lookup_setItem_self]
              rw [List.find?_cons_of_pos _ (by simp [hm])]
              exact hv0.symm
            · rw [lookup_setItem_ne _ _ hknew]
              rw [List.find?_cons_of_neg _ (by
                simp only [Bool.and_eq_true, decide_eq_true_eq, not_and]
                intro _ hcon
                exact hknew hcon.symm)]
              by_cases hkk0 : k = k0
              · subst hkk0
                rw [lookup_popItem_self _ _ hdnd, hnowrite, hv0]
                dsimp only
                rw [if_pos ⟨hm, by simp⟩]
              · rw [lookup_popItem_ne _ hkk0, hspec k]
                unfold kfrepSpecP
                cases hf : P.reverse.find? (fun k2 =>
                    kfrepMatch fnd xcptns k2
                      && decide (pyReplace k2 fnd rplc = k)) with
                | some k2 => rfl
                | none =>
                    dsimp only
                    cases lookup d0 k with
                    | none => rfl
                    | some v =>
                        dsimp only
                        by_cases hc : kfrepMatch fnd xcptns k = true ∧ k ∈ P
                        · rw [if_pos hc, if_pos ⟨hc.1, by simp [hc.2]⟩]
                        · rw [if_neg hc, if_neg ?_]
                          intro hcon
                          rcases hcon with ⟨hc1, hc2⟩
                          rcases List.mem_append.mp hc2 with h3 | h3
                          · exact hc ⟨hc1, h3⟩
                          · exact hkk0 (by simpa using h3)

/-- C8 (amended): when no renamed key collides with an original key of the
mapping, `kfrep` renames every key containing `fnd` and not excepted
(all occurrences replaced, value unchanged), leaves every other key
untouched, removes the matched originals, and resolves collisions between
renamed keys in favour of the original key processed later in iteration
order.  (A renamed key equal to an original key instead silently
overwrites that entry at rename time, regardless of iteration order —
see the counterexample.) -/
theorem kfrep_rename_characterization (fnd rplc : Key) (xcptns : List Key)
    (d0 : DictS) (hnd : (keys d0).Nodup)
    (H2 : ∀ k ∈ keys d0, kfrepMatch fnd xcptns k = true →
        pyReplace k fnd rplc ∉ keys d0) :
    ∃ d, kfrepOne fnd rplc xcptns d0 = some d
      ∧ ∀ k, lookup d k = kfrepSpec fnd rplc xcptns d0 k := by
  rcases kfrep_prefix fnd rplc xcptns d0 hnd H2 (keys d0) []
    (by simp) with ⟨d, hd, _, hspec⟩
  exact ⟨d, hd, hspec⟩

/-- Counterexample to C8 as stated: on `{'ab': 1, 'b': 2}` with
`fnd = 'a'`, the rename of `'ab'` to `'b'` silently overwrites the
untouched later-iterated original key `'b'`, so the result maps `'b'` to
`1`; the claim's collision rule (later-processed original key wins) would
give `'b' ↦ 2`. -/
theorem kfrep_collision_counterexample :
    kfrepOne ['a'] [] [] [(['a', 'b'], 1), (['b'], 2)] = some [(['b'], 1)]
    ∧ lookup [((['b'] : Key), 1)] ['b'] = some 1
    ∧ ¬ lookup [((['b'] : Key), 1)] ['b'] = some 2 := by
  refine ⟨?_, by decide, by decide⟩
  simp [kfrepOne, kfrepStep, kfrepMatch, containsSub, pyReplace, keys,
    lookup, setItem, popItem]

/-- Witness for C8 on `{'ab': 1, 'c': 2}` with `fnd = 'a'`. -/
theorem kfrep_rename_characterization_witness :
    ∃ d, kfrepOne ['a'] [] [] [(['a', 'b'], 1), (['c'], 2)] = some d
      ∧ ∀ k, lookup d k
          = kfrepSpec ['a'] [] [] [(['a', 'b'], 1), (['c'], 2)] k := by
  refine kfrep_rename_characterization ['a'] [] [] _ (by decide) ?_
  intro k hk hm
  have hk2 : k = ['a', 'b'] ∨ k = ['c'] := by simpa [keys] using hk
  rcases hk2 with rfl | rfl
  · simp [pyReplace, keys]
  · simp [kfrepMatch, containsSub] at hm

end Frep

/-! ## `to_dataframe`: table shape and contents (C2) -/

section Frame

variable {α : Type}

theorem ceilDiv_eq (m c : Nat) (hm : 1 ≤ m) (hc : 1 ≤ c) :
    ceilDiv m c = (m - 1) / c + 1 := by
  unfold ceilDiv
  rw [show m + c - 1 = (m - 1) + c from by omega, Nat.add_div_right _ hc]

theorem ceilDiv_pos (m c : Nat) (hm : 1 ≤ m) (hc : 1 ≤ c) :
    1 ≤ ceilDiv m c := by
  rw [ceilDiv_eq m c hm hc]
  exact Nat.le_add_left 1 _

theorem ceilDiv_zero_left (c : Nat) : ceilDiv 0 c = 0 := by
  unfold ceilDiv
  cases c with
  | zero => rfl
  | succ c2 =>
      simp only [Nat.zero_add]
      exact Nat.div_eq_of_lt (by omega)

theorem ceilDiv_rec (m c : Nat) (hm : 1 ≤ m) (hc : 1 ≤ c) :
    ceilDiv m c = 1 + ceilDiv (m - c) c := by
  by_cases h : m ≤ c
  · have h1 : (m - 1) / c = 0 := Nat.div_eq_of_lt (by omega)
    have h2 : ceilDiv (m - c) c = 0 := by
      rw [show m - c = 0 from by omega]
      exact ceilDiv_zero_left c
    rw [ceilDiv_eq m c hm hc, h1, h2]
  · rw [ceilDiv_eq m c hm hc, ceilDiv_eq (m - c) c (by omega) hc]
    rw [show m - 1 = (m - c - 1) + c from by omega, Nat.add_div_right _ hc]
    omega

theorem chunkPad_length (fill : α) (L1 : Nat) :
    ∀ xs : List α, (chunkPad fill L1 xs).length = ceilDiv xs.length (L1 + 1) := by
  intro xs
  induction xs using chunkPad.induct fill L1 with
  | case1 =>
      have h := ceilDiv_zero_left (L1 + 1)
      simpa [chunkPad] using h.symm
  | case2 k rest ih =>
      rw [show chunkPad fill L1 (k :: rest)
          = ((k :: rest).take (L1 + 1)
              ++ List.replicate ((L1 + 1) - (k :: rest).length) fill)
            :: chunkPad fill L1 ((k :: rest).drop (L1 + 1))
        from by simp [chunkPad]]
      rw [List.length_cons, ih]
      rw [ceilDiv_rec ((k :: rest).length) (L1 + 1) (by simp) (by omega)]
      rw [List.length_drop]
      omega

theorem chunkPad_mem_length (fill : α) (L1 : Nat) :
    ∀ xs : List α, ∀ ch ∈ chunkPad fill L1 xs, ch.length = L1 + 1 := by
  intro xs
  induction xs using chunkPad.induct fill L1 with
  | case1 =>
      intro ch hch
      rw [show chunkPad fill L1 ([] : List α) = [] from by simp [chunkPad]] at hch
      simp at hch
  | case2 k rest ih =>
      intro ch hch
      rw [show chunkPad fill L1 (k :: rest)
          = ((k :: rest).take (L1 + 1)
              ++ List.replicate ((L1 + 1) - (k :: rest).length) fill)
            :: chunkPad fill L1 ((k :: rest).drop (L1 + 1))
        from by simp [chunkPad]] at hch
      rcases List.mem_cons.mp hch with h | h
      · rw [h, List.length_append, List.length_take, List.length_replicate]
        simp only [List.length_cons]
        omega
      · exact ih ch h

theorem chunkPad_getD (fill : α) (L1 : Nat) :
    ∀ xs : List α, ∀ j, j < (chunkPad fill L1 xs).length →
      (chunkPad fill L1 xs).getD j [] = paddedChunk xs (L1 + 1) fill j := by
  intro xs
  induction xs using chunkPad.induct fill L1 with
  | case1 =>
      intro j hj
      rw [show chunkPad fill L1 ([] : List α) = [] from by simp [chunkPad]] at hj
      simp at hj
  | case2 k rest ih =>
      intro j hj
      rw [show chunkPad fill L1 (k :: rest)
          = ((k :: rest).take (L1 + 1)
              ++ List.replicate ((L1 + 1) - (k :: rest).length) fill)
            :: chunkPad fill L1 ((k :: rest).drop (L1 + 1))
        from by simp [chunkPad]] at hj ⊢
      cases j with
      | zero =>
          unfold paddedChunk
          simp
      | succ j =>
          rw [show ∀ (a : List α) (l : List (List α)),
              (a :: l).getD (j + 1) [] = l.getD j [] from fun a l => rfl]
          rw [List.length_cons] at hj
          rw [ih j (by omega)]
          unfold paddedChunk
          rw [show (j + 1) * (L1 + 1) = (L1 + 1) + j * (L1 + 1) from by ring]
          rw [List.drop_drop, List.length_drop]
          congr 1
          congr 1
          omega

theorem filterMap_head_eq_map (dflt : α) :
    ∀ ls : List (List α), (∀ l ∈ ls, l ≠ []) →
      ls.filterMap List.head? = ls.map (fun l => l.getD 0 dflt) := by
  intro ls
  induction ls with
  | nil => intro _; rfl
  | cons l0 rest ih =>
      intro h
      have h0 := h l0 (by simp)
      cases l0 with
      | nil => exact absurd rfl h0
      | cons a as =>
          rw [List.filterMap_cons, List.map_cons]
          simp only [List.head?_cons, List.getD]
          rw [ih (fun l hl => h l (by simp [hl]))]
          rfl

theorem getD_tail (l : List α) (i : Nat) (dflt : α) (h : l ≠ []) :
    l.tail.getD i dflt = l.getD (i + 1) dflt := by
  cases l with
  | nil => exact absurd rfl h
  | cons a as => rfl

/-- `zip(*ls)` of a non-empty uniform list of rows of length `n`. -/
theorem transposeZ_uniform (dflt : α) :
    ∀ (n : Nat) (ls : List (List α)), ls ≠ [] → (∀ l ∈ ls, l.length = n) →
      transposeZ ls
        = (List.range n).map (fun i => ls.map (fun l => l.getD i dflt)) := by
  intro n
  induction n with
  | zero =>
      intro ls hne hlen
      cases ls with
      | nil => exact absurd rfl hne
      | cons l0 rest =>
          have h0 : l0 = [] := List.eq_nil_of_length_eq_zero (hlen l0 (by simp))
          rw [show transposeZ (l0 :: rest) = [] from by
            unfold transposeZ
            rw [dif_neg]
            intro hcon
            rw [List.all_cons, Bool.and_eq_true] at hcon
            rw [h0] at hcon
            simp at hcon]
          simp
  | succ n ih =>
      intro ls hne hlen
      cases ls with
      | nil => exact absurd rfl hne
      | cons l0 rest =>
          have hall : ∀ l ∈ l0 :: rest, l ≠ [] := by
            intro l hl
            have := hlen l hl
            intro hcon
            rw [hcon] at this
            simp at this
          have hcond : (l0 :: rest).all (fun l => !l.isEmpty) = true := by
            rw [List.all_eq_true]
            intro l hl
            have := hall l hl
            simp [List.isEmpty_eq_false.mpr this]
          rw [show transposeZ (l0 :: rest)
              = (l0 :: rest).filterMap List.head?
                :: transposeZ ((l0 :: rest).map List.tail) from by
            simp only [transposeZ]
            rw [dif_pos hcond]]
          rw [filterMap_head_eq_map dflt _ hall]
          rw [ih ((l0 :: rest).map List.tail)
            (by simp)
            (by
              intro l hl
              rcases List.mem_map.mp hl with ⟨l2, hl2, rfl⟩
              rw [List.length_tail, hlen l2 hl2]
              rfl)]
          rw [List.range_succ_eq_map, List.map_cons]
          congr 1
          rw [List.map_map]
          apply List.map_congr_left
          intro i _
          rw [List.map_map]
          apply List.map_congr_left
          intro l hl
          exact getD_tail l i dflt (hall l hl)

theorem getD_map {β γ : Type} (f : β → γ) (d : β) :
    ∀ (ls : List β) (j : Nat), j < ls.length →
      (ls.map f).getD j (f d) = f (ls.getD j d) := by
  intro ls
  induction ls with
  | nil => intro j hj; simp at hj
  | cons b rest ih =>
      intro j hj
      cases j with
      | zero => rfl
      | succ j =>
          simp only [List.length_cons] at hj
          exact ih j (by omega)

theorem range_map_getD (dflt : α) :
    ∀ (l : List α), (List.range l.length).map (fun i => l.getD i dflt) = l := by
  intro l
  induction l with
  | nil => rfl
  | cons a rest ih =>
      rw [List.length_cons, List.range_succ_eq_map, List.map_cons, List.map_map]
      have h2 : ((fun i => (a :: rest).getD i dflt) ∘ Nat.succ)
          = fun i => rest.getD i dflt := by
        funext i
        rfl
      rw [h2, ih]
      rfl

/-- Transposing twice restores a non-empty uniform list of non-empty rows. -/
theorem transposeZ_transposeZ (dflt : α) (n : Nat) (ls : List (List α))
    (hne : ls ≠ []) (hn : 1 ≤ n) (hlen : ∀ l ∈ ls, l.length = n) :
    transposeZ (transposeZ ls) = ls := by
  rw [transposeZ_uniform dflt n ls hne hlen]
  rw [transposeZ_uniform dflt ls.length
    ((List.range n).map (fun i => ls.map (fun l => l.getD i dflt)))
    (by
      intro hcon
      rw [List.map_eq_nil_iff, List.range_eq_nil] at hcon
      omega)
    (by
      intro l hl
      rcases List.mem_map.mp hl with ⟨i, _, rfl⟩
      exact List.length_map _ _)]
  apply Eq.trans ?_ (range_map_getD ([] : List α) ls)
  apply List.map_congr_left
  intro j hj
  have hjlt : j < ls.length := List.mem_range.mp hj
  rw [List.map_map]
  have h2 : ((fun l => l.getD j dflt) ∘ fun i => ls.map (fun l => l.getD i dflt))
      = fun i => (ls.getD j []).getD i dflt := by
    funext i
    exact getD_map (fun l => l.getD i dflt) [] ls j hjlt
  rw [h2]
  have h4 : (ls.getD j []).length = n := by
    apply hlen
    have := List.getD_eq_getElem?_getD ls j []
    rw [this]
    cases hg : ls[j]? with
    | none =>
        exfalso
        rw [List.getElem?_eq_none_iff] at hg
        omega
    | some l2 =>
        simp only [Option.getD_some]
        exact List.getElem?_mem hg
  rw [← h4, range_map_getD]

theorem paddedChunk_length (xs : List α) (L : Nat) (fill : α) (j : Nat) :
    (paddedChunk xs L fill j).length = L := by
  unfold paddedChunk
  rw [List.length_append, List.length_take, List.length_replicate,
    List.length_drop]
  omega

theorem zipRange_filter_aux (dflt : α) :
    ∀ (n s j : Nat) (L : List α), L.length = n →
      ((((List.range' s n).zip L).filter (fun p => decide (p.1 = j))).map
          Prod.snd)
        = if s ≤ j ∧ j < s + n then [L.getD (j - s) dflt] else [] := by
  intro n
  induction n with
  | zero =>
      intro s j L hL
      rw [if_neg (by omega)]
      rfl
  | succ n ih =>
      intro s j L hL
      cases L with
      | nil => simp at hL
      | cons x L2 =>
          rw [List.range'_succ]
          rw [show ((s :: List.range' (s + 1) n).zip (x :: L2))
              = (s, x) :: (List.range' (s + 1) n).zip L2 from rfl]
          rw [List.filter_cons]
          by_cases hsj : s = j
          · rw [if_pos (by simpa using hsj)]
            rw [List.map_cons]
            have h0 := ih (s + 1) j L2 (by simpa using hL)
            rw [if_neg (by omega)] at h0
            rw [h0]
            rw [if_pos (by omega)]
            rw [show j - s = 0 from by omega, List.getD_cons_zero]
          · rw [if_neg (by simpa using hsj)]
            have h0 := ih (s + 1) j L2 (by simpa using hL)
            rw [h0]
            by_cases hj2 : s + 1 ≤ j ∧ j < s + 1 + n
            · rw [if_pos hj2, if_pos (by omega)]
              rw [show j - s = (j - (s + 1)) + 1 from by omega,
                List.getD_cons_succ]
            · rw [if_neg hj2, if_neg (by omega)]

theorem zipRange_filter (dflt : α) (n : Nat) (L : List α) (h : L.length = n)
    (j : Nat) :
    (((List.range n).zip L).filter (fun p => decide (p.1 = j))).map Prod.snd
      = if j < n then [L.getD j dflt] else [] := by
  rw [List.range_eq_range']
  rw [zipRange_filter_aux dflt n 0 j L h]
  by_cases hj : j < n
  · rw [if_pos (by omega), if_pos hj, Nat.sub_zero]
  · rw [if_neg (by omega), if_neg hj]

theorem flatMap_congr {β γ : Type} (l : List β) (f g : β → List γ)
    (h : ∀ b ∈ l, f b = g b) : l.flatMap f = l.flatMap g := by
  induction l with
  | nil => rfl
  | cons b bs ih =>
      rw [List.flatMap_cons, List.flatMap_cons, h b (by simp),
        ih (fun x hx => h x (by simp [hx]))]

theorem flatMap_pairs_length {β : Type} (f g : Nat → β) :
    ∀ l : List Nat, (l.flatMap (fun j => [f j, g j])).length = 2 * l.length := by
  intro l
  induction l with
  | nil => rfl
  | cons b bs ih =>
      rw [List.flatMap_cons, List.length_append, ih]
      simp only [List.length_cons, List.length_nil]
      omega

theorem flatten_replicate_length {β : Type} (l : List β) :
    ∀ n : Nat, ((List.replicate n l).flatten).length = n * l.length := by
  intro n
  induction n with
  | zero => simp
  | succ n ih =>
      rw [List.replicate_succ, List.flatten_cons, List.length_append, ih]
      ring

/-- Selecting `range c` from the two-block concatenated table picks, for
each label `j < c`, the `j`-th key chunk then the `j`-th value chunk. -/
theorem dfSelect_concat (KC VC : List (List α)) (c : Nat)
    (hK : KC.length = c) (hV : VC.length = c) :
    dfSelect ⟨List.range c ++ List.range c, KC ++ VC⟩ (List.range c)
      = Except.ok ⟨(List.range c).flatMap (fun j =>
            ((((List.range c ++ List.range c).zip (KC ++ VC))).filter
              (fun p => decide (p.1 = j))).map Prod.fst),
          (List.range c).flatMap
            (fun j => [KC.getD j [], VC.getD j []])⟩ := by
  have hguard : ((List.range c).all (fun j =>
      decide (j ∈ (List.range c ++ List.range c)))) = true := by
    rw [List.all_eq_true]
    intro j hj
    simp only [decide_eq_true_eq]
    exact List.mem_append.mpr (Or.inl hj)
  unfold dfSelect
  dsimp only
  rw [if_pos hguard]
  refine congrArg Except.ok ?_
  refine congrArg (DF.mk _) ?_
  apply flatMap_congr
  intro j hj
  have hjc : j < c := List.mem_range.mp hj
  rw [List.zip_append (by rw [List.length_range, hK])]
  rw [List.filter_append, List.map_append]
  rw [zipRange_filter ([] : List α) c KC hK j,
    zipRange_filter ([] : List α) c VC hV j]
  rw [if_pos hjc, if_pos hjc]
  rfl

/-- `pd.DataFrame` applied to the transpose of a non-empty uniform chunk
list recovers the chunks as columns, labelled `0, ..., c-1`. -/
theorem dfOfRows_transposeZ (fill : α) (L1 c : Nat) (CH : List (List α))
    (hLen : CH.length = c) (hc : 1 ≤ c)
    (hch : ∀ ch ∈ CH, ch.length = L1 + 1) :
    dfOfRows (transposeZ CH) = ⟨List.range c, CH⟩ := by
  have hne : CH ≠ [] := by
    intro hcon
    rw [hcon] at hLen
    simp only [List.length_nil] at hLen
    omega
  unfold dfOfRows
  congr 1
  · rw [transposeZ_uniform fill (L1 + 1) CH hne hch]
    rw [List.range_succ_eq_map, List.map_cons, List.headD_cons,
      List.length_map, hLen]
  · exact transposeZ_transposeZ fill (L1 + 1) CH hne (by omega) hch

/-- C2 (amended): when the mapping is non-empty and partitioning its
`len(M)` entries into chunks of `ceil(len(M)/columns)` really yields
`columns` chunks — i.e. `ceil(len(M)/ceil(len(M)/columns)) = columns` —
`to_dataframe` returns a table with `2*columns` columns labelled with
`columns` repetitions of `("key", "value")`, each column of length
`ceil(len(M)/columns)`, and the columns are exactly the key chunk and the
value chunk of each partition index in order, short last chunks padded
with `fillvalue`.  (Without that proviso the final column selection
raises `KeyError` — see the counterexample.) -/
theorem to_dataframe_shape (mp : List (α × α)) (c : Nat) (fill : α)
    (hm : 1 ≤ mp.length) (hc : 1 ≤ c)
    (hfit : ceilDiv mp.length (ceilDiv mp.length c) = c) :
    ∃ t, to_dataframe mp c fill = Except.ok t
      ∧ t.labels = (List.replicate c ["key", "value"]).flatten
      ∧ t.cols.length = 2 * c
      ∧ (∀ col ∈ t.cols, col.length = ceilDiv mp.length c)
      ∧ t.cols = (List.range c).flatMap (fun j =>
          [paddedChunk (mp.map Prod.fst) (ceilDiv mp.length c) fill j,
           paddedChunk (mp.map Prod.snd) (ceilDiv mp.length c) fill j]) := by
  obtain ⟨L1, hL1⟩ : ∃ L1, ceilDiv mp.length c = L1 + 1 :=
    ⟨ceilDiv mp.length c - 1, by
      have := ceilDiv_pos mp.length c hm hc
      omega⟩
  have hKlen : (chunkPad fill L1 (mp.map Prod.fst)).length = c := by
    rw [chunkPad_length, List.length_map, ← hL1, hfit]
  have hVlen : (chunkPad fill L1 (mp.map Prod.snd)).length = c := by
    rw [chunkPad_length, List.length_map, ← hL1, hfit]
  have hKch := chunkPad_mem_length fill L1 (mp.map Prod.fst)
  have hVch := chunkPad_mem_length fill L1 (mp.map Prod.snd)
  have hsel := dfSelect_concat (chunkPad fill L1 (mp.map Prod.fst))
    (chunkPad fill L1 (mp.map Prod.snd)) c hKlen hVlen
  refine ⟨⟨(List.replicate c ["key", "value"]).flatten,
      (List.range c).flatMap (fun j =>
        [paddedChunk (mp.map Prod.fst) (ceilDiv mp.length c) fill j,
         paddedChunk (mp.map Prod.snd) (ceilDiv mp.length c) fill j])⟩,
    ?_, rfl, ?_, ?_, rfl⟩
  · have hcols : (List.range c).flatMap (fun j =>
          [(chunkPad fill L1 (mp.map Prod.fst)).getD j [],
           (chunkPad fill L1 (mp.map Prod.snd)).getD j []])
        = (List.range c).flatMap (fun j =>
          [paddedChunk (mp.map Prod.fst) (ceilDiv mp.length c) fill j,
           paddedChunk (mp.map Prod.snd) (ceilDiv mp.length c) fill j]) := by
      apply flatMap_congr
      intro j hj
      have hjc : j < c := List.mem_range.mp hj
      rw [chunkPad_getD fill L1 (mp.map Prod.fst) j
        (by rw [hKlen]; exact hjc)]
      rw [chunkPad_getD fill L1 (mp.map Prod.snd) j
        (by rw [hVlen]; exact hjc)]
      rw [hL1]
    have hlen2 : ((List.replicate c ["key", "value"]).flatten).length
        = ((List.range c).flatMap (fun j =>
            [(chunkPad fill L1 (mp.map Prod.fst)).getD j [],
             (chunkPad fill L1 (mp.map Prod.snd)).getD j []])).length := by
      rw [flatten_replicate_length, flatMap_pairs_length, List.length_range]
      simp [Nat.mul_comm]
    simp only [to_dataframe]
    rw [show grouper (mp.map Prod.fst) (ceilDiv mp.length c) fill
        = chunkPad fill L1 (mp.map Prod.fst) from by rw [hL1]; rfl]
    rw [show grouper (mp.map Prod.snd) (ceilDiv mp.length c) fill
        = chunkPad fill L1 (mp.map Prod.snd) from by rw [hL1]; rfl]
    rw [dfOfRows_transposeZ fill L1 c _ hKlen hc hKch,
      dfOfRows_transposeZ fill L1 c _ hVlen hc hVch]
    rw [show dfConcat
          (⟨List.range c, chunkPad fill L1 (mp.map Prod.fst)⟩ : DF Nat α)
          ⟨List.range c, chunkPad fill L1 (mp.map Prod.snd)⟩
        = ⟨List.range c ++ List.range c,
            chunkPad fill L1 (mp.map Prod.fst)
              ++ chunkPad fill L1 (mp.map Prod.snd)⟩ from rfl]
    rw [hsel]
    dsimp only
    unfold dfRelabel
    dsimp only
    rw [if_pos hlen2]
    exact congrArg Except.ok (congrArg (DF.mk _) hcols)
  · rw [flatMap_pairs_length, List.length_range]
  · intro col hcol
    rcases List.mem_flatMap.mp hcol with ⟨j, _, hmem⟩
    simp only [List.mem_cons, List.not_mem_nil, or_false] at hmem
    rcases hmem with rfl | rfl
    · exact paddedChunk_length _ _ _ _
    · exact paddedChunk_length _ _ _ _

/-- Witness for C2 on 5 entries with `columns = 2`: a 3-row, 4-column
table whose last row carries the fill value in its second key/value
pair. -/
theorem to_dataframe_shape_witness :
    ∃ t, to_dataframe [((0 : Nat), (10 : Nat)), (1, 11), (2, 12), (3, 13),
          (4, 14)] 2 99
        = Except.ok t
      ∧ t.labels = ["key", "value", "key", "value"]
      ∧ t.cols.length = 4
      ∧ (∀ col ∈ t.cols, col.length = 3)
      ∧ t.cols = [[0, 1, 2], [10, 11, 12], [3, 4, 99], [13, 14, 99]] :=
  to_dataframe_shape
    [((0 : Nat), (10 : Nat)), (1, 11), (2, 12), (3, 13), (4, 14)] 2 99
    (by decide) (by decide) (by decide)

/-- Counterexample to C2 as stated: 4 entries with the positive column
count 3 give chunks of length `ceil(4/3) = 2`, hence only 2 chunks; the
selection of column label 2 then raises `KeyError` instead of returning
a table. -/
theorem to_dataframe_columns_counterexample :
    to_dataframe [((0 : Nat), (0 : Nat)), (1, 1), (2, 2), (3, 3)] 3 7
      = Except.error () := by
  simp [to_dataframe, ceilDiv, grouper, chunkPad, transposeZ, dfOfRows,
    dfConcat, dfSelect, dfRelabel, List.range_succ]

end Frame

/-! ## Store frame: no function mutates its inputs (C4) -/

section StoreFrame

theorem frame_refl {σ : Store} : FrameFrom σ σ :=
  ⟨Nat.le_refl _, fun _ _ => rfl⟩

theorem frame_trans {σ0 σ1 σ2 : Store} (h1 : FrameFrom σ0 σ1)
    (h2 : FrameFrom σ1 σ2) : FrameFrom σ0 σ2 :=
  ⟨Nat.le_trans h1.1 h2.1,
   fun a ha => (h2.2 a (Nat.lt_of_lt_of_le ha h1.1)).trans (h1.2 a ha)⟩

theorem readS_writeS_self (σ : Store) (b : Nat) (d : DictM) :
    readS (writeS σ b d) b = d := by
  simp [readS, writeS, lookup_setItem_self]

theorem readS_writeS_ne (σ : Store) (b : Nat) (d : DictM) {a : Nat}
    (h : a ≠ b) : readS (writeS σ b d) a = readS σ a := by
  simp [readS, writeS, lookup_setItem_ne σ.mem d h]

theorem readS_allocS_old (σ : Store) (d : DictM) {a : Nat} (h : a ≠ σ.next) :
    readS (allocS σ d).1 a = readS σ a := by
  simp [readS, allocS, lookup_setItem_ne σ.mem d h]

theorem frame_writeS {σ0 σ : Store} {b : Nat} (d : DictM)
    (hF : FrameFrom σ0 σ) (hb : σ0.next ≤ b) : FrameFrom σ0 (writeS σ b d) :=
  ⟨hF.1, fun a ha => by
    rw [readS_writeS_ne σ b d (by omega)]
    exact hF.2 a ha⟩

theorem frame_allocS {σ0 σ : Store} (d : DictM) (hF : FrameFrom σ0 σ) :
    FrameFrom σ0 (allocS σ d).1 :=
  ⟨by
    have := hF.1
    simp only [allocS]
    omega,
   fun a ha => by
    rw [readS_allocS_old σ d (by have := hF.1; omega)]
    exact hF.2 a ha⟩

theorem DDInv_of_frame {σ σ2 : Store} {agg : Nat} (hI : DDInv σ agg)
    (hF : FrameFrom σ σ2) : DDInv σ2 agg := by
  refine ⟨Nat.lt_of_lt_of_le hI.1 hF.1, fun k ib hl => ?_⟩
  rw [hF.2 agg hI.1] at hl
  have := hI.2 k ib hl
  have := hF.1
  omega

theorem DDInv_writeS_ne {σ : Store} {agg b : Nat} (d : DictM)
    (hI : DDInv σ agg) (hne : b ≠ agg) : DDInv (writeS σ b d) agg := by
  refine ⟨hI.1, fun k ib hl => ?_⟩
  rw [readS_writeS_ne σ b d (Ne.symm hne)] at hl
  exact hI.2 k ib hl

theorem DDInv_fresh (σ : Store) :
    DDInv (allocS σ []).1 (allocS σ []).2 := by
  refine ⟨by simp [allocS], fun k ib hl => ?_⟩
  have h0 : readS (allocS σ []).1 (allocS σ []).2 = [] := by
    simp [readS, allocS, lookup_setItem_self]
  rw [h0] at hl
  simp [lookup] at hl

theorem foldl_inv {γ β : Type} (Q : γ → Prop) (f : γ → β → γ) :
    ∀ (l : List β) (s : γ), Q s → (∀ sc b, b ∈ l → Q sc → Q (f sc b)) →
      Q (l.foldl f s) := by
  intro l
  induction l with
  | nil =>
      intro s hQ _
      exact hQ
  | cons b bs ih =>
      intro s hQ hstep
      exact ih (f s b) (hstep s b (by simp) hQ)
        (fun sc b2 hb2 => hstep sc b2 (by simp [hb2]))

theorem DDInv_dd_write {σ : Store} {agg : Nat} (k : Key) (hI : DDInv σ agg) :
    DDInv (writeS (allocS σ []).1 agg
      (setItem (readS (allocS σ []).1 agg) k (Val.ref (allocS σ []).2)))
      agg := by
  have hne : agg ≠ σ.next := by
    have := hI.1
    omega
  constructor
  · show agg < σ.next + 1
    have := hI.1
    omega
  · intro k2 ib hl
    rw [readS_writeS_self] at hl
    rw [readS_allocS_old σ [] hne] at hl
    show agg < ib ∧ ib < σ.next + 1
    by_cases hk : k2 = k
    · rw [hk, lookup_setItem_self] at hl
      have hib : σ.next = ib := by simpa [allocS] using hl
      have := hI.1
      omega
    · rw [lookup_setItem_ne _ _ hk] at hl
      have := hI.2 k2 ib hl
      omega

theorem ddAccess_spec (σ0 σ : Store) (agg : Nat) (k : Key)
    (hF : FrameFrom σ0 σ) (hagg : σ0.next ≤ agg) (hI : DDInv σ agg) :
    FrameFrom σ0 (ddAccess σ agg k).1
    ∧ DDInv (ddAccess σ agg k).1 agg
    ∧ agg < (ddAccess σ agg k).2
    ∧ σ.next ≤ (ddAccess σ agg k).1.next
    ∧ (∀ agg2, agg2 ≠ agg → DDInv σ agg2 →
        DDInv (ddAccess σ agg k).1 agg2) := by
  unfold ddAccess
  cases hl : lookup (readS σ agg) k with
  | none =>
      dsimp only
      refine ⟨frame_writeS _ (frame_allocS _ hF) hagg, DDInv_dd_write k hI,
        hI.1, ?_, ?_⟩
      · show σ.next ≤ σ.next + 1
        omega
      · intro agg2 hne hI2
        exact DDInv_writeS_ne _
          (DDInv_of_frame hI2 (frame_allocS _ frame_refl)) (Ne.symm hne)
  | some v =>
      cases v with
      | ref ib =>
          dsimp only
          have hib := hI.2 k ib hl
          exact ⟨hF, hI, hib.1, Nat.le_refl _, fun _ _ h => h⟩
      | scal n =>
          dsimp only
          refine ⟨frame_writeS _ (frame_allocS _ hF) hagg, DDInv_dd_write k hI,
            hI.1, ?_, ?_⟩
          · show σ.next ≤ σ.next + 1
            omega
          · intro agg2 hne hI2
            exact DDInv_writeS_ne _
              (DDInv_of_frame hI2 (frame_allocS _ frame_refl)) (Ne.symm hne)
      | vnone =>
          dsimp only
          refine ⟨frame_writeS _ (frame_allocS _ hF) hagg, DDInv_dd_write k hI,
            hI.1, ?_, ?_⟩
          · show σ.next ≤ σ.next + 1
            omega
          · intro agg2 hne hI2
            exact DDInv_writeS_ne _
              (DDInv_of_frame hI2 (frame_allocS _ frame_refl)) (Ne.symm hne)

theorem ddAccess_weak (σ0 σ : Store) (agg : Nat) (k : Key)
    (hF : FrameFrom σ0 σ) (hagg : σ0.next ≤ agg) :
    FrameFrom σ0 (ddAccess σ agg k).1
    ∧ σ.next ≤ (ddAccess σ agg k).1.next
    ∧ (∀ agg2, agg2 ≠ agg → DDInv σ agg2 →
        DDInv (ddAccess σ agg k).1 agg2) := by
  unfold ddAccess
  cases hl : lookup (readS σ agg) k with
  | none =>
      dsimp only
      refine ⟨frame_writeS _ (frame_allocS _ hF) hagg, ?_, ?_⟩
      · show σ.next ≤ σ.next + 1
        omega
      · intro agg2 hne hI2
        exact DDInv_writeS_ne _
          (DDInv_of_frame hI2 (frame_allocS _ frame_refl)) (Ne.symm hne)
  | some v =>
      cases v with
      | ref ib =>
          dsimp only
          exact ⟨hF, Nat.le_refl _, fun _ _ h => h⟩
      | scal n =>
          dsimp only
          refine ⟨frame_writeS _ (frame_allocS _ hF) hagg, ?_, ?_⟩
          · show σ.next ≤ σ.next + 1
            omega
          · intro agg2 hne hI2
            exact DDInv_writeS_ne _
              (DDInv_of_frame hI2 (frame_allocS _ frame_refl)) (Ne.symm hne)
      | vnone =>
          dsimp only
          refine ⟨frame_writeS _ (frame_allocS _ hF) hagg, ?_, ?_⟩
          · show σ.next ≤ σ.next + 1
            omega
          · intro agg2 hne hI2
            exact DDInv_writeS_ne _
              (DDInv_of_frame hI2 (frame_allocS _ frame_refl)) (Ne.symm hne)

theorem kfltrOneS_frame (σ : Store) (fltr : Key) (xcptns : List Key)
    (a : Nat) :
    FrameFrom σ (kfltrOneS σ fltr xcptns a).1
    ∧ (kfltrOneS σ fltr xcptns a).2 = σ.next := by
  refine ⟨?_, rfl⟩
  unfold kfltrOneS
  dsimp only
  refine foldl_inv (fun σc => FrameFrom σ σc) _ _ _
    (frame_allocS _ frame_refl) ?_
  intro σc p _ hQ
  by_cases hc : (containsSub p.1 fltr || decide (p.1 ∈ xcptns)) = true
  · rw [if_pos hc]
    exact frame_writeS _ hQ (le_of_eq rfl)
  · rw [if_neg hc]
    exact hQ

theorem kfltrS_frame (σ : Store) (addrs : List Nat) (fltr : Key)
    (xcptns : List Key) (kwargs : DictM) :
    FrameFrom σ (kfltrS σ addrs fltr xcptns kwargs).1
    ∧ ∀ r ∈ (kfltrS σ addrs fltr xcptns kwargs).2, σ.next ≤ r := by
  unfold kfltrS
  dsimp only
  refine foldl_inv
    (fun (st : Store × List Nat) => FrameFrom σ st.1 ∧ ∀ r ∈ st.2, σ.next ≤ r)
    _ _ _ ⟨frame_allocS _ frame_refl, by intro r hr; simp at hr⟩ ?_
  intro st b _ hQ
  dsimp only
  refine ⟨frame_trans hQ.1 (kfltrOneS_frame st.1 fltr xcptns b).1, ?_⟩
  intro r hr
  rcases List.mem_append.mp hr with h | h
  · exact hQ.2 r h
  · have h2 : r = st.1.next := by
      have h3 := (kfltrOneS_frame st.1 fltr xcptns b).2
      simp only [List.mem_singleton] at h
      rw [h, h3]
    rw [h2]
    exact hQ.1.1

theorem kfrepOneS_frame (σ : Store) (fnd rplc : Key) (xcptns : List Key)
    (a : Nat) :
    FrameFrom σ (kfrepOneS σ fnd rplc xcptns a).1
    ∧ (kfrepOneS σ fnd rplc xcptns a).2 = σ.next := by
  refine ⟨?_, rfl⟩
  unfold kfrepOneS
  dsimp only
  refine foldl_inv (fun σc => FrameFrom σ σc) _ _ _
    (frame_allocS _ frame_refl) ?_
  intro σc k _ hQ
  by_cases hm : kfrepMatch fnd xcptns k = true
  · rw [if_pos hm]
    cases hl : lookup (readS σc (allocS σ (readS σ a)).2) k with
    | some v =>
        dsimp only
        exact frame_writeS _ hQ (le_of_eq rfl)
    | none =>
        dsimp only
        exact hQ
  · rw [if_neg hm]
    exact hQ

theorem kfrepS_frame (σ : Store) (addrs : List Nat) (fnd rplc : Key)
    (xcptns : List Key) (kwargs : DictM) :
    FrameFrom σ (kfrepS σ addrs fnd rplc xcptns kwargs).1
    ∧ ∀ r ∈ (kfrepS σ addrs fnd rplc xcptns kwargs).2, σ.next ≤ r := by
  unfold kfrepS
  dsimp only
  refine foldl_inv
    (fun (st : Store × List Nat) => FrameFrom σ st.1 ∧ ∀ r ∈ st.2, σ.next ≤ r)
    _ _ _ ⟨frame_allocS _ frame_refl, by intro r hr; simp at hr⟩ ?_
  intro st b _ hQ
  dsimp only
  refine ⟨frame_trans hQ.1 (kfrepOneS_frame st.1 fnd rplc xcptns b).1, ?_⟩
  intro r hr
  rcases List.mem_append.mp hr with h | h
  · exact hQ.2 r h
  · have h2 : r = st.1.next := by
      have h3 := (kfrepOneS_frame st.1 fnd rplc xcptns b).2
      simp only [List.mem_singleton] at h
      rw [h, h3]
    rw [h2]
    exact hQ.1.1

theorem kswapS_frame (σ : Store) (a : Nat) :
    FrameFrom σ (kswapS σ a).1 ∧ σ.next ≤ (kswapS σ a).2 := by
  unfold kswapS
  dsimp only
  have key : ∀ σc : Store, FrameFrom σ σc ∧ DDInv σc (allocS σ []).2 →
      FrameFrom σ (allocS σc (readS σc (allocS σ []).2)).1
      ∧ σ.next ≤ (allocS σc (readS σc (allocS σ []).2)).2 :=
    fun σc h => ⟨frame_allocS _ h.1, h.1.1⟩
  apply key
  refine foldl_inv (fun σc => FrameFrom σ σc ∧ DDInv σc (allocS σ []).2) _ _ _
    ⟨frame_allocS _ frame_refl, DDInv_fresh σ⟩ ?_
  intro σc p _ hQ
  cases hp : p.2 with
  | ref ia =>
      dsimp only
      refine foldl_inv (fun σd => FrameFrom σ σd ∧ DDInv σd (allocS σ []).2)
        _ _ _ hQ ?_
      intro σd q _ hQd
      dsimp only
      obtain ⟨hF2, hI2, hlt, _, _⟩ :=
        ddAccess_spec σ σd (allocS σ []).2 q.1 hQd.1 (le_of_eq rfl) hQd.2
      have hlt2 : σ.next < (ddAccess σd (allocS σ []).2 q.1).2 := hlt
      exact ⟨frame_writeS _ hF2 (Nat.le_of_lt hlt2),
        DDInv_writeS_ne _ hI2 (ne_of_gt hlt)⟩
  | scal n =>
      dsimp only
      exact hQ
  | vnone =>
      dsimp only
      exact hQ

theorem flaggregateS_frame (σ : Store) (addrs : List Nat) (kwargs : DictM) :
    FrameFrom σ (flaggregateS σ addrs kwargs).1
    ∧ σ.next ≤ (flaggregateS σ addrs kwargs).2 := by
  unfold flaggregateS
  dsimp only
  refine ⟨?_, by show σ.next ≤ σ.next + 1; omega⟩
  refine foldl_inv (fun σc => FrameFrom σ σc) _ _ _
    (frame_allocS _ (frame_allocS _ frame_refl)) ?_
  intro σc b _ hQ
  refine foldl_inv (fun σd => FrameFrom σ σd) _ _ _ hQ ?_
  intro σd p _ hQd
  exact frame_writeS _ hQd (by show σ.next ≤ σ.next + 1; omega)

theorem naggregateS_frame (σ : Store) (addrs : List Nat) :
    FrameFrom σ (naggregateS σ addrs).1 ∧ σ.next ≤ (naggregateS σ addrs).2 := by
  unfold naggregateS
  dsimp only
  have key : ∀ σc : Store, FrameFrom σ σc ∧ DDInv σc (allocS σ []).2 →
      FrameFrom σ (allocS σc (readS σc (allocS σ []).2)).1
      ∧ σ.next ≤ (allocS σc (readS σc (allocS σ []).2)).2 :=
    fun σc h => ⟨frame_allocS _ h.1, h.1.1⟩
  apply key
  refine foldl_inv (fun σc => FrameFrom σ σc ∧ DDInv σc (allocS σ []).2) _ _ _
    ⟨frame_allocS _ frame_refl, DDInv_fresh σ⟩ ?_
  intro σc b _ hQ
  refine foldl_inv (fun σd => FrameFrom σ σd ∧ DDInv σd (allocS σ []).2)
    _ _ _ hQ ?_
  intro σd p _ hQd
  cases hp : p.2 with
  | ref ia =>
      dsimp only
      refine foldl_inv (fun σe => FrameFrom σ σe ∧ DDInv σe (allocS σ []).2)
        _ _ _ hQd ?_
      intro σe q _ hQe
      dsimp only
      obtain ⟨hF2, hI2, hlt, _, _⟩ :=
        ddAccess_spec σ σe (allocS σ []).2 p.1 hQe.1 (le_of_eq rfl) hQe.2
      have hlt2 : σ.next < (ddAccess σe (allocS σ []).2 p.1).2 := hlt
      exact ⟨frame_writeS _ hF2 (Nat.le_of_lt hlt2),
        DDInv_writeS_ne _ hI2 (ne_of_gt hlt)⟩
  | scal n =>
      dsimp only
      exact hQd
  | vnone =>
      dsimp only
      exact hQd

theorem maggregateS_frame (σ : Store) (tlkys : List Key)
    (dctAddrs nstdAddrs : List Nat) (kwargs : DictM) :
    FrameFrom σ (maggregateS σ tlkys dctAddrs nstdAddrs kwargs).1
    ∧ σ.next ≤ (maggregateS σ tlkys dctAddrs nstdAddrs kwargs).2 := by
  unfold maggregateS
  dsimp only
  set pkS := allocS σ kwargs
  set p1S := allocS pkS.1 []
  set p2S := flaggregateS p1S.1 dctAddrs []
  set p3S := naggregateS p2S.1 nstdAddrs
  set p4S := allocS p3S.1 (readS p3S.1 p3S.2)
  have hF1 : FrameFrom σ p1S.1 := frame_allocS _ (frame_allocS _ frame_refl)
  have hI1 : DDInv p1S.1 p1S.2 := DDInv_fresh pkS.1
  have hFl := flaggregateS_frame p1S.1 dctAddrs []
  have hNa := naggregateS_frame p2S.1 nstdAddrs
  have hF3 : FrameFrom σ p3S.1 := frame_trans hF1 (frame_trans hFl.1 hNa.1)
  have hF4 : FrameFrom σ p4S.1 := frame_allocS _ hF3
  have hI3 : DDInv p3S.1 p1S.2 :=
    DDInv_of_frame (DDInv_of_frame hI1 hFl.1) hNa.1
  have hI4 : DDInv p4S.1 p1S.2 :=
    DDInv_of_frame hI3 (frame_allocS _ frame_refl)
  have hp12lt : p1S.2 < p4S.2 := hI3.1
  have hσ4 : σ.next ≤ p4S.2 := hF3.1
  have hσp1 : σ.next ≤ p1S.2 := by
    show σ.next ≤ σ.next + 1
    omega
  have key : ∀ σc : Store, FrameFrom σ σc ∧ DDInv σc p1S.2 →
      FrameFrom σ (allocS σc (readS σc p1S.2)).1
      ∧ σ.next ≤ (allocS σc (readS σc p1S.2)).2 :=
    fun σc h => ⟨frame_allocS _ h.1, h.1.1⟩
  apply key
  refine foldl_inv (fun σc => FrameFrom σ σc ∧ DDInv σc p1S.2) _ _ _
    ⟨hF4, hI4⟩ ?_
  intro σc t _ hQ
  dsimp only
  have hdd := ddAccess_weak σ σc p4S.2 t hQ.1 hσ4
  have hQn : FrameFrom σ (ddAccess σc p4S.2 t).1
      ∧ DDInv (ddAccess σc p4S.2 t).1 p1S.2 :=
    ⟨hdd.1, hdd.2.2 p1S.2 (ne_of_lt hp12lt) hQ.2⟩
  refine foldl_inv (fun σf => FrameFrom σ σf ∧ DDInv σf p1S.2) _ _ _ hQn ?_
  intro σf kw _ hQf
  cases hr : resolveValS σf p2S.2 (ddAccess σc p4S.2 t).2 pkS.2 t kw with
  | some v =>
      dsimp only
      obtain ⟨hF2, hI2, hlt, _, _⟩ :=
        ddAccess_spec σ σf p1S.2 t hQf.1 hσp1 hQf.2
      exact ⟨frame_writeS _ hF2
          (Nat.le_of_lt (Nat.lt_of_le_of_lt hσp1 hlt)),
        DDInv_writeS_ne _ hI2 (ne_of_gt hlt)⟩
  | none =>
      dsimp only
      exact hQf

theorem depthS_pure (σ : Store) (a : Nat) : (depthS σ a).1 = σ := rfl

theorem to_dataframeS_pure (σ : Store) (a c : Nat) (fill : CellS) :
    (to_dataframeS σ a c fill).1 = σ := rfl

/-- C4: no function of the module mutates any mapping passed to it.  In
the store model, every call leaves every previously allocated object —
in particular every input mapping and every mapping nested inside one —
with exactly the entries it had before the call (`FrameFrom`), and every
dict the call returns is newly built: its address lies at or beyond the
pre-call allocation frontier.  `depth` and `to_dataframe` do not touch
the store at all. -/
theorem no_input_mutation :
    ∀ σ : Store,
      (∀ addrs fltr xcptns kwargs,
        FrameFrom σ (kfltrS σ addrs fltr xcptns kwargs).1
        ∧ ∀ r ∈ (kfltrS σ addrs fltr xcptns kwargs).2, σ.next ≤ r)
      ∧ (∀ addrs fnd rplc xcptns kwargs,
        FrameFrom σ (kfrepS σ addrs fnd rplc xcptns kwargs).1
        ∧ ∀ r ∈ (kfrepS σ addrs fnd rplc xcptns kwargs).2, σ.next ≤ r)
      ∧ (∀ a, FrameFrom σ (kswapS σ a).1 ∧ σ.next ≤ (kswapS σ a).2)
      ∧ (∀ addrs kwargs,
        FrameFrom σ (flaggregateS σ addrs kwargs).1
        ∧ σ.next ≤ (flaggregateS σ addrs kwargs).2)
      ∧ (∀ addrs, FrameFrom σ (naggregateS σ addrs).1
        ∧ σ.next ≤ (naggregateS σ addrs).2)
      ∧ (∀ tlkys dctAddrs nstdAddrs kwargs,
        FrameFrom σ (maggregateS σ tlkys dctAddrs nstdAddrs kwargs).1
        ∧ σ.next ≤ (maggregateS σ tlkys dctAddrs nstdAddrs kwargs).2)
      ∧ (∀ a, (depthS σ a).1 = σ)
      ∧ (∀ a c fill, (to_dataframeS σ a c fill).1 = σ) :=
  fun σ =>
    ⟨fun addrs fltr xcptns kwargs => kfltrS_frame σ addrs fltr xcptns kwargs,
     fun addrs fnd rplc xcptns kwargs =>
       kfrepS_frame σ addrs fnd rplc xcptns kwargs,
     fun a => kswapS_frame σ a,
     fun addrs kwargs => flaggregateS_frame σ addrs kwargs,
     fun addrs => naggregateS_frame σ addrs,
     fun tlkys dctAddrs nstdAddrs kwargs =>
       maggregateS_frame σ tlkys dctAddrs nstdAddrs kwargs,
     fun a => depthS_pure σ a,
     fun a c fill => to_dataframeS_pure σ a c fill⟩

end StoreFrame

end Dcttools
